import Mathlib

/-!
Verification development for the Arakne sequential analysis queue and
incremental merge engine.

The definitions below are a shallow embedding of the TypeScript source:

* `src/lib/entity-extraction` data model (Entity / Relationship /
  ExtractionResult) as used by the merge engine and the backend client;
* `DeepSeekAnalyzer.formatResult`, `getEntityTypePrefix`, `mapEntityType`
  from `src/lib/deepseek-api.ts` (lines 304-366);
* `AnalysisQueueService` from `src/lib/queue-service.ts`
  (`addTask`, `processNextTask`, `mergeResults`, `getPreviousResults`),
  modelled as an explicit labelled transition system over the service
  state, with the cooperative single-threaded JavaScript scheduler made
  explicit: every synchronous section between `await` suspension points
  is one atomic step.

JavaScript numbers are modelled as rationals (all strength arithmetic in
the source stays within exactly representable values), JS `Map` objects
as association lists in insertion order, and JS `Set` dedup as
first-occurrence dedup.
-/

set_option maxHeartbeats 1000000

/-- Entity type, the closed set from `src/lib/entity-extraction` as used by
`DeepSeekAnalyzer.mapEntityType`. -/
inductive EntityType where
  | person
  | organization
  | location
  | date
  | other
deriving DecidableEq, Repr

/-- Entity record (data model of `src/lib/entity-extraction`, per usage in
`deepseek-api.ts` and `queue-service.ts`).  A missing `summary` is modelled
as the empty string: the only observation the source makes of `summary` is
JS truthiness and `.length`, which do not distinguish `undefined` from
the empty string. -/
structure Entity where
  id : String
  name : String
  type : EntityType
  aliases : List String
  summary : String
deriving DecidableEq, Repr

/-- Relationship record.  `strength` is a JS number, modelled as a rational. -/
structure Relationship where
  id : String
  source : String
  target : String
  strength : ℚ
deriving DecidableEq, Repr

/-- ExtractionResult: one extraction pass output, also the cumulative state. -/
structure ExtractionResult where
  entities : List Entity
  relationships : List Relationship
deriving DecidableEq, Repr

/-- The empty cumulative context (initial `previousResults` in
`queue-service.ts` line 31). -/
def emptyResult : ExtractionResult := { entities := [], relationships := [] }

/-! ## JS Set dedup

`[...new Set([...a, ...b])]` (queue-service.ts line 175) keeps the first
occurrence of each element, in insertion order. -/

/-- One `Set.add` step of JS set construction: ignore an element already seen,
otherwise append it. -/
def jsSetAdd (seen : List String) (x : String) : List String :=
  if x ∈ seen then seen else seen ++ [x]

/-- The element list of `new Set(l)` in JS: first occurrences, in order. -/
def jsSetOfList (l : List String) : List String := l.foldl jsSetAdd []

/-! ## JS Map model

`queue-service.ts` `mergeResults` (lines 161-208) uses a
`Map<string, V>` keyed by `id`.  A JS `Map` preserves insertion order;
`set` on an existing key replaces the value in place, `set` on a new key
appends.  Both the entity and the relationship loop have the same shape,
so the map mechanics are stated once, parametrised by the key projection
and the update applied when a key is already present. -/

section KeyedMap

variable {α : Type} (key : α → String) (combine : α → α → α)

/-- JS `Map.set` keyed by `key`: replace in place when the key is present,
append otherwise. -/
def jsMapSet (m : List α) (x : α) : List α :=
  if m.any (fun y => key y == key x) then
    m.map (fun y => if key y == key x then x else y)
  else
    m ++ [x]

/-- One iteration of the `current.*.forEach` loop in `mergeResults`: if the
incoming id is already present, store the combination of the existing record
with the incoming one (in the source this is an in-place mutation of the
stored object); otherwise insert the incoming record verbatim. -/
def jsMapStep (m : List α) (x : α) : List α :=
  match m.find? (fun y => key y == key x) with
  | some ex => jsMapSet key m (combine ex x)
  | none => jsMapSet key m x

/-- The whole two-loop merge of `mergeResults` for one of the two
collections: load `previous` into the map, then fold the incoming
collection, then read the map values in insertion order. -/
def jsMerge (previous current : List α) : List α :=
  current.foldl (jsMapStep key combine) (previous.foldl (jsMapSet key) [])

end KeyedMap

/-- Entity update for an already-present id (queue-service.ts lines 172-179):
alias lists are concatenated and deduplicated via a JS `Set`, and the summary
is replaced only when the incoming one is truthy and either the existing one
is falsy or strictly shorter. -/
def entCombine (ex incoming : Entity) : Entity :=
  { ex with
    aliases := jsSetOfList (ex.aliases ++ incoming.aliases)
    summary :=
      if incoming.summary ≠ "" ∧ (ex.summary = "" ∨ ex.summary.length < incoming.summary.length)
      then incoming.summary else ex.summary }

/-- JS `Math.min` on two numbers (neither argument is NaN anywhere in play). -/
def jsMin (a b : ℚ) : ℚ := if a ≤ b then a else b

/-- Relationship update for an already-present id (queue-service.ts line 198):
`strength = Math.min(10, existing.strength + rel.strength * 0.5)`. -/
def relCombine (ex incoming : Relationship) : Relationship :=
  { ex with strength := jsMin 10 (ex.strength + incoming.strength * (1 / 2)) }

/-- `AnalysisQueueService.mergeResults` (queue-service.ts lines 161-208). -/
def mergeResults (previous current : ExtractionResult) : ExtractionResult :=
  { entities := jsMerge Entity.id entCombine previous.entities current.entities
    relationships := jsMerge Relationship.id relCombine previous.relationships current.relationships }

/-! ## Backend client normalization (`deepseek-api.ts`) -/

/-- Raw entity shape returned by the backend (deepseek-api.ts lines 5-11). -/
structure DeepSeekEntity where
  name : String
  type : String
  aliases : List String
  summary : String
deriving DecidableEq, Repr

/-- Raw relationship shape returned by the backend (deepseek-api.ts 13-17). -/
structure DeepSeekRelationship where
  source : String
  target : String
  strength : ℚ
deriving DecidableEq, Repr

/-- Raw backend response (deepseek-api.ts lines 19-22). -/
structure DeepSeekResult where
  entities : List DeepSeekEntity
  relationships : List DeepSeekRelationship
deriving DecidableEq, Repr

/-- JS `s.toLowerCase()` (character-wise lowering; the type tags and names in
play are ASCII). -/
def strToLower (s : String) : String := String.mk (s.toList.map Char.toLower)

/-- Substring test on character lists, for JS `String.prototype.includes`. -/
def charsInclude (pat : List Char) : List Char → Bool
  | [] => pat.isEmpty
  | c :: rest => pat.isPrefixOf (c :: rest) || charsInclude pat rest

/-- JS `s.includes(pat)`. -/
def strIncludes (s pat : String) : Bool := charsInclude pat.toList s.toList

/-- `DeepSeekAnalyzer.getEntityTypePrefix` (deepseek-api.ts lines 359-366). -/
def getEntityTypePrefix (tp : String) : String :=
  let t := strToLower tp
  if strIncludes t "person" then "person"
  else if strIncludes t "org" then "org"
  else if strIncludes t "loc" then "loc"
  else if strIncludes t "date" then "date"
  else "other"

/-- `DeepSeekAnalyzer.mapEntityType` (deepseek-api.ts lines 347-354). -/
def mapEntityType (tp : String) : EntityType :=
  let t := strToLower tp
  if strIncludes t "person" then .person
  else if strIncludes t "org" then .organization
  else if strIncludes t "loc" then .location
  else if strIncludes t "date" then .date
  else .other

/-- Whitespace class of the JS regex `\s` (ASCII part; the names in play are
ASCII). -/
def isJsWs (c : Char) : Bool :=
  c == ' ' || c == '\t' || c == '\n' || c == '\r' || c == '\x0b' || c == '\x0c'

/-- Character-level engine of `replace(/\s+/g, LDASH)`: each maximal
whitespace run is replaced by a single hyphen.  The flag records whether the
previous character was part of a whitespace run. -/
def collapseWsAux : Bool → List Char → List Char
  | _, [] => []
  | prevWs, c :: rest =>
    if isJsWs c then
      (if prevWs then [] else ['-']) ++ collapseWsAux true rest
    else
      c :: collapseWsAux false rest

/-- Name slug of deepseek-api.ts line 311:
`entity.name.toLowerCase().replace(/\s+/g, LDASH)`. -/
def normalizeName (s : String) : String :=
  String.mk (collapseWsAux false (strToLower s).toList)

/-- The entity transform of `formatResult` (deepseek-api.ts lines 309-317):
the id is `prefix(type) ++ "-" ++ slug(name)`. -/
def formatEntity (e : DeepSeekEntity) : Entity :=
  { id := getEntityTypePrefix e.type ++ "-" ++ normalizeName e.name
    name := e.name
    type := mapEntityType e.type
    aliases := e.aliases
    summary := e.summary }

/-- The entity list of `formatResult`. -/
def formatEntities (result : DeepSeekResult) : List Entity :=
  result.entities.map formatEntity

/-- The relationship transform of `formatResult` (deepseek-api.ts lines
320-336): resolve both endpoint names against the transformed entity list;
a relationship naming a missing entity becomes `null` (here `none`). -/
def resolveRel (entities : List Entity) (r : DeepSeekRelationship) : Option Relationship :=
  match entities.find? (fun e => e.name == r.source),
        entities.find? (fun e => e.name == r.target) with
  | some se, some te =>
    some { id := "rel-" ++ se.id ++ "-" ++ te.id
           source := se.id
           target := te.id
           strength := r.strength }
  | _, _ => none

/-- `DeepSeekAnalyzer.formatResult` (deepseek-api.ts lines 307-342):
normalizes the raw backend response.  The `.map(...).filter(Boolean)` over
relationships is `filterMap`. -/
def formatResult (result : DeepSeekResult) : ExtractionResult :=
  { entities := formatEntities result
    relationships := result.relationships.filterMap (resolveRel (formatEntities result)) }

/-- The backend response of the end-to-end scenario in the specification:
Alice (person), Bob (person), Paris (location), one relationship
Alice to Bob with strength 5. -/
def aliceBobParisResponse : DeepSeekResult :=
  { entities :=
      [ { name := "Alice", type := "person", aliases := [], summary := "A person" }
      , { name := "Bob", type := "person", aliases := [], summary := "A person" }
      , { name := "Paris", type := "location", aliases := [], summary := "A city" } ]
    relationships := [ { source := "Alice", target := "Bob", strength := 5 } ] }

/-- A backend response containing a relationship whose target name,
"Unknown Corp", matches no entity of the same response. -/
def unknownCorpResponse : DeepSeekResult :=
  { entities :=
      [ { name := "Alice", type := "person", aliases := [], summary := "A person" }
      , { name := "Acme", type := "organization", aliases := [], summary := "A company" } ]
    relationships :=
      [ { source := "Alice", target := "Acme", strength := 3 }
      , { source := "Alice", target := "Unknown Corp", strength := 7 } ] }

/-! ## Reference model for `getPreviousResults` (queue-service.ts lines 247-249)

The source returns the object spread `( ...this.previousResults )`: a new
top-level object whose `entities` and `relationships` fields hold the SAME
array references as the internal cumulative context.  To make the sharing
observable, arrays are stored in an explicit store addressed by numeric
references, and an ExtractionResult OBJECT is the pair of its two array
references. -/

/-- Store of allocated arrays.  Index `i` of `entArrays` is the entity array
with reference `i`, similarly for `relArrays`. -/
structure ArrayStore where
  entArrays : List (List Entity)
  relArrays : List (List Relationship)
deriving DecidableEq, Repr

/-- An ExtractionResult object: references to its two arrays. -/
structure ResultRef where
  entities : Nat
  relationships : Nat
deriving DecidableEq, Repr

/-- `getPreviousResults` (queue-service.ts line 248): the object spread
copies the two field values, which are array references. -/
def getPreviousResults (internal : ResultRef) : ResultRef :=
  { entities := internal.entities, relationships := internal.relationships }

/-- A caller-side `returned.entities.push(e)`: mutates the array stored at
the given reference. -/
def pushEntity (h : ArrayStore) (ref : Nat) (e : Entity) : ArrayStore :=
  { h with entArrays := h.entArrays.set ref ((h.entArrays.getD ref []) ++ [e]) }

/-- Dereference an ExtractionResult object to its value. -/
def readResult (h : ArrayStore) (r : ResultRef) : ExtractionResult :=
  { entities := h.entArrays.getD r.entities []
    relationships := h.relArrays.getD r.relationships [] }

/-- A probe entity for the aliasing experiment. -/
def probeEntity : Entity :=
  { id := "person-x", name := "X", type := .person, aliases := [], summary := "" }

/-! ## Queue service transition system (queue-service.ts lines 24-258)

JavaScript runs the service single-threaded; the only suspension point of
`processNextTask` is `await this.processTask(...)` (line 104).  Every
synchronous section between suspension points is therefore one atomic
step of the model:

* `addTask` (lines 36-57) pushes a pending task onto `queue`, unshifts the
  SAME object onto `taskHistory` (newest first, lines 47-48) and, when no
  task is in flight, runs `processNextTask` synchronously up to the `await`
  (lines 79-99): the first pending task becomes `processing`, and the local
  `const historyIndex` (line 94) — the task's position in `taskHistory` at
  that moment — is captured by the now-suspended activation.
* `finishTask` models the resumption after the `await`: the `try` branch
  (success, lines 106-122) or `catch` branch (failure, lines 123-134)
  writes the outcome both through `this.currentTask` and through
  `this.taskHistory[historyIndex]` with the CAPTURED index.  If `addTask`
  ran during the await, its `unshift` calls have shifted the history, so
  the second write lands on a different, newer task object.  Both branches
  fall through to the `finally` block (lines 135-145), which clears the
  single-flight flag and synchronously starts the next pending task.

Task objects are shared by reference between `queue` (append-only) and
`taskHistory`, so the model keeps every task record in `queue` — its
position equals its id, ids being consecutive insertion indices — and
represents `taskHistory` as the list of those ids newest-first; a write
through a history position is a write to the task object with that id,
wherever it is referenced.  The per-type handler installed by
`queue-adapter.ts` is abstracted by the outcome it is going to produce for
its task, fixed at enqueue time.  The handler reads `getPreviousResults()`
between `started` and the task resolution; no `previousResults` write can
interleave there (the only write, line 121, runs in this very task's
resumption), so the model records the context the handler observes at the
`started` event. -/

/-- Task lifecycle status (queue-service.ts line 11). -/
inductive TStatus where
  | pending
  | processing
  | completed
  | failed
deriving DecidableEq, Repr

/-- Prescribed behaviour of `processTask` for one task: resolve, optionally
having stored a result on the task, or reject with an error message. -/
inductive Outcome where
  | success (result : Option ExtractionResult)
  | failure (msg : String)
deriving DecidableEq, Repr

/-- One `AnalysisTask` (queue-service.ts lines 6-14).  Ids are assigned as
consecutive naturals (the source uses time-plus-random strings; only
freshness matters).  `content` and `type` are irrelevant to the queue
lifecycle and are subsumed by `outcome`. -/
structure QTask where
  id : Nat
  timestamp : Nat
  status : TStatus
  result : Option ExtractionResult
  error : Option String
  outcome : Outcome
deriving DecidableEq, Repr

/-- Observable events of one run, in order of occurrence.  `started`
records the cumulative context the handler of that task observes via
`getPreviousResults()`; `notified` is the `notifyTaskCompleted` call
(line 117); `ctxUpdated` is the `previousResults` assignment (line 121). -/
inductive QEvent where
  | enqueued (id : Nat)
  | started (id : Nat) (ctx : ExtractionResult)
  | completedEv (id : Nat)
  | notified (id : Nat)
  | ctxUpdated (id : Nat) (ctx : ExtractionResult)
  | failedEv (id : Nat) (msg : String)
deriving DecidableEq, Repr

/-- State of the `AnalysisQueueService` singleton (queue-service.ts lines
25-31) plus the event trace and the in-flight activation's captured local.
`queue` is append-only (queue order is enqueue order) and doubles as the
task-object store: position equals id.  `taskHistory` holds the ids of the
aliased history array, newest first (`unshift`, line 48).
`savedHistoryIndex` is the `const historyIndex` local (line 94) of the
suspended `processNextTask` activation, computed before its `await` and
used again after it; `none` when no activation is suspended. -/
structure QState where
  queue : List QTask
  taskHistory : List Nat
  isProcessing : Bool
  currentTask : Option Nat
  savedHistoryIndex : Option Nat
  previousResults : ExtractionResult
  events : List QEvent
deriving DecidableEq, Repr

/-- Initial state of the service (field initialisers, lines 25-31). -/
def initState : QState :=
  { queue := [], taskHistory := [], isProcessing := false, currentTask := none
    savedHistoryIndex := none, previousResults := emptyResult, events := [] }

/-- Mark the first `pending` task of the list as `processing`, returning the
updated task and list (`findIndex` plus status write, lines 84-91). -/
def markProcessing : List QTask → Option (QTask × List QTask)
  | [] => none
  | t :: ts =>
    if t.status = .pending then
      some ({ t with status := .processing }, { t with status := .processing } :: ts)
    else
      (markProcessing ts).map (fun p => (p.1, t :: p.2))

/-- JS `Array.prototype.findIndex` on the id list of `taskHistory`, with its
running index; `none` stands for the `-1` "not found" return (line 94). -/
def jsFindIndexAux (p : Nat → Bool) : List Nat → Nat → Option Nat
  | [], _ => none
  | x :: xs, i => if p x then some i else jsFindIndexAux p xs (i + 1)

/-- `taskHistory.findIndex(...)` (queue-service.ts line 94). -/
def jsFindIndex (p : Nat → Bool) (l : List Nat) : Option Nat :=
  jsFindIndexAux p l 0

/-- JS array indexing `l[i]` on a list of ids (`undefined` out of bounds). -/
def jsAt : List Nat → Nat → Option Nat
  | [], _ => none
  | x :: _, 0 => some x
  | _ :: xs, i + 1 => jsAt xs i

/-- In-place mutation of the task object with the given id: `queue` and
`taskHistory` hold the same objects (lines 47-48), so a field write through
either array is a write to the task carrying that id. -/
def updateTask (q : List QTask) (tid : Nat) (f : QTask → QTask) : List QTask :=
  q.map (fun t => if t.id == tid then f t else t)

/-- The id of the task object `this.taskHistory[historyIndex]` refers to:
`taskHistory` holds ids newest-first, so this is the id at position `hIdx`
of the CURRENT history — which differs from the id the index was computed
for when `unshift` calls happened in between.  `none` covers the
`historyIndex !== -1` guard failing and the index running off the array. -/
def historyTarget (history : List Nat) (hIdx : Option Nat) : Option Nat :=
  match hIdx with
  | some h => jsAt history h
  | none => none

/-- One guarded history-write block
`if (historyIndex !== -1) { this.taskHistory[historyIndex].X = ...; }`
(lines 95-97, 109-114, 130-133): apply `f` to the task object that position
`hIdx` of `history` currently refers to. -/
def staleWrite (q : List QTask) (history : List Nat) (hIdx : Option Nat)
    (f : QTask → QTask) : List QTask :=
  match historyTarget history hIdx with
  | some tid => updateTask q tid f
  | none => q

/-- The synchronous prefix of `processNextTask` (lines 79-99): bail out when
already processing or no pending task; otherwise set the single-flight flag,
mark the first pending task `processing`, compute `historyIndex` for it
(line 94, fresh at this point, so the mirror write of line 96 hits the task
just marked), and suspend at the `await` — at which point the handler reads
the current cumulative context. -/
def startFirstPending (s : QState) : QState :=
  if s.isProcessing then s
  else
    match markProcessing s.queue with
    | none => s
    | some (c, q) =>
      { s with
        queue := staleWrite q s.taskHistory
            (jsFindIndex (fun tid => tid == c.id) s.taskHistory)
            (fun t => { t with status := TStatus.processing })
        isProcessing := true
        currentTask := some c.id
        savedHistoryIndex := jsFindIndex (fun tid => tid == c.id) s.taskHistory
        events := s.events ++ [QEvent.started c.id s.previousResults] }

/-- `addTask` (lines 36-57): construct a pending task, push it onto the
queue, unshift its id onto the history, and start processing when idle.
`ts` is the `Date.now()` timestamp and `o` the prescribed handler outcome. -/
def addTask (s : QState) (ts : Nat) (o : Outcome) : QState :=
  startFirstPending
    { s with
      queue := s.queue ++ [{ id := s.queue.length, timestamp := ts, status := .pending
                             result := none, error := none, outcome := o }]
      taskHistory := s.queue.length :: s.taskHistory
      events := s.events ++ [QEvent.enqueued s.queue.length] }

/-- Replace the task with the given id (the in-place mutations of
`this.currentTask`, which lives inside `this.queue`). -/
def setTask (q : List QTask) (cid : Nat) (c : QTask) : List QTask :=
  q.map (fun t => if t.id == cid then c else t)

/-- The `finally` block (lines 135-145): clear the single-flight flag and the
current task (the `historyIndex` local dies with the activation), then
re-enter `processNextTask`, which starts the next pending task if one
exists. -/
def afterFinally (s : QState) : QState :=
  startFirstPending
    { s with isProcessing := false, currentTask := none, savedHistoryIndex := none }

/-- Resumption of `processNextTask` after `await this.processTask(...)`
resolves or rejects (lines 101-145).  On success (lines 106-122): status
`completed` and the handler-stored result on the current task, then the
history write through the CAPTURED `historyIndex` (lines 109-114: status
`completed` unconditionally, the result copied only when present), then the
subscriber notification, then — only when a result is present — the merge
output replaces `previousResults`.  On failure (lines 123-134): status
`failed` with the message on the current task, then the history write
through the captured index (lines 130-133: status `failed` and the same
message); no notification, no merge.  The history writes mutate whatever
task object `taskHistory[historyIndex]` refers to at resumption time and
emit no events.  Both paths fall through to the `finally` block. -/
def finishTask (s : QState) : QState :=
  match s.currentTask with
  | none => s
  | some cid =>
    match s.queue.find? (fun t => t.id == cid) with
    | none => s
    | some c =>
      match c.outcome with
      | .success res =>
        let s1 : QState :=
          { s with
            queue := staleWrite
                (setTask s.queue cid { c with status := .completed, result := res })
                s.taskHistory s.savedHistoryIndex
                (fun t => { t with status := TStatus.completed
                                   result := if res.isSome then res else t.result })
            events := s.events ++ [QEvent.completedEv cid, QEvent.notified cid] }
        match res with
        | some r =>
          let m := mergeResults s.previousResults r
          afterFinally { s1 with previousResults := m
                                 events := s1.events ++ [QEvent.ctxUpdated cid m] }
        | none => afterFinally s1
      | .failure msg =>
        afterFinally
          { s with
            queue := staleWrite
                (setTask s.queue cid { c with status := .failed, error := some msg })
                s.taskHistory s.savedHistoryIndex
                (fun t => { t with status := TStatus.failed, error := some msg })
            events := s.events ++ [QEvent.failedEv cid msg] }

/-- Atomic steps of the service: an `addTask` call with arbitrary timestamp
and prescribed outcome, or the resumption of the in-flight handler. -/
inductive QStep : QState → QState → Prop
  | add (s : QState) (ts : Nat) (o : Outcome) : QStep s (addTask s ts o)
  | finish (s : QState) (h : s.isProcessing = true) : QStep s (finishTask s)

/-- States reachable from the initial service state. -/
inductive Reachable : QState → Prop
  | init : Reachable initState
  | step {s s'} : Reachable s → QStep s s' → Reachable s'

/-- Ids of `enqueued` events, in order. -/
def enqueuedIds (es : List QEvent) : List Nat :=
  es.filterMap (fun e => match e with | .enqueued i => some i | _ => none)

/-- Ids of `started` events, in order. -/
def startedIds (es : List QEvent) : List Nat :=
  es.filterMap (fun e => match e with | .started i _ => some i | _ => none)

/-- Ids of finished (completed or failed) tasks, in finish order. -/
def finishedIds (es : List QEvent) : List Nat :=
  es.filterMap (fun e =>
    match e with | .completedEv i => some i | .failedEv i _ => some i | _ => none)

/-- The cumulative context after a list of events: the payload of the last
`ctxUpdated`, or the empty context. -/
def lastCtx (es : List QEvent) : ExtractionResult :=
  es.foldl (fun acc e => match e with | .ctxUpdated _ m => m | _ => acc) emptyResult

/-- A task status is terminal when it is `completed` or `failed`. -/
def TStatus.terminalB : TStatus → Bool
  | .completed => true
  | .failed => true
  | _ => false

/-- Propositional form of `TStatus.terminalB`. -/
def TStatus.terminal (st : TStatus) : Prop := st.terminalB = true

/-! ## Concrete data for witness theorems -/

/-- Existing relationship of strength 3 (specification example). -/
def wPrevRel : Relationship := { id := "rel-x-y", source := "x", target := "y", strength := 3 }

/-- Incoming relationship with the same id, strength 4. -/
def wIncRel : Relationship := { id := "rel-x-y", source := "x", target := "y", strength := 4 }

/-- Incoming relationship with a fresh id and strength 12 (above the cap). -/
def wNewRel : Relationship := { id := "rel-a-b", source := "a", target := "b", strength := 12 }

/-- Previous context holding only `wPrevRel`. -/
def wPrevER : ExtractionResult := { entities := [], relationships := [wPrevRel] }

/-- Incoming result holding `wIncRel` and `wNewRel`. -/
def wIncER : ExtractionResult := { entities := [], relationships := [wIncRel, wNewRel] }

/-- Existing entity `person-jane-doe` with one alias (specification example). -/
def wPrevEnt : Entity :=
  { id := "person-jane-doe", name := "Jane Doe", type := .person
    aliases := ["J. Doe"], summary := "A person" }

/-- Incoming entity with the same id, an overlapping alias list and a longer
summary. -/
def wIncEnt : Entity :=
  { id := "person-jane-doe", name := "Jane Doe", type := .person
    aliases := ["J. Doe", "Jane"], summary := "A person of interest" }

/-- Incoming entity with a fresh id. -/
def wNewEnt : Entity :=
  { id := "org-acme", name := "Acme", type := .organization, aliases := [], summary := "" }

/-- Previous context holding only `wPrevEnt`. -/
def wPrevEE : ExtractionResult := { entities := [wPrevEnt], relationships := [] }

/-- Incoming result holding `wIncEnt` and `wNewEnt`. -/
def wIncEE : ExtractionResult := { entities := [wIncEnt, wNewEnt], relationships := [] }

/-- Handler outcome: resolve without storing a result. -/
def oSkip : Outcome := .success none

/-- A small extraction result used as a handler result in queue scenarios. -/
def ctxA : ExtractionResult :=
  { entities := [{ id := "person-a", name := "A", type := .person, aliases := [], summary := "s" }]
    relationships := [] }

/-- Handler outcome: resolve with result `ctxA`. -/
def oA : Outcome := .success (some ctxA)

/-- Two tasks enqueued while idle: the first is in flight, the second pending. -/
def qS2 : QState := addTask (addTask initState 0 oSkip) 1 oSkip

/-- T1 enqueued and in flight; T2 and T3 enqueued during T1's await; then T1
resolves (the stale history write lands on T3) and T2 resolves. -/
def qStale3 : QState :=
  finishTask (finishTask (addTask (addTask (addTask initState 0 oA) 1 oA) 2 oA))

/-- Two result-producing tasks run to completion one after the other. -/
def qC7 : QState := finishTask (addTask (finishTask (addTask initState 0 oA)) 1 oA)

/-- The events of `qC7` preceding the start of the second task. -/
def qC7pre : List QEvent :=
  [ .enqueued 0, .started 0 emptyResult, .completedEv 0, .notified 0
  , .ctxUpdated 0 (mergeResults emptyResult ctxA), .enqueued 1 ]

/-- The events of `qC7` after the start of the second task. -/
def qC7suf : List QEvent :=
  [ .completedEv 1, .notified 1
  , .ctxUpdated 1 (mergeResults (mergeResults emptyResult ctxA) ctxA) ]

/-- A failing task in flight with a pending task queued behind it. -/
def qFail : QState := addTask (addTask initState 0 (.failure "boom")) 1 oSkip

/-- `qFail` after the failing handler rejects: the stale history write lands
on the pending task enqueued during the await. -/
def qStaleFail : QState := finishTask qFail

/-- Shape of the queue at step boundaries: when a task is in flight the
queue is a terminal prefix, the processing task, then tasks that are not
processing — pending ones, and tasks a stale history write already drove to
a terminal status; when idle every task is terminal (the `finally` block
always drains pending tasks before returning control, and stale writes only
ever write terminal statuses). -/
def QueueShape (s : QState) : Prop :=
  (s.isProcessing = true ∧ ∃ done c rest,
      s.queue = done ++ c :: rest ∧
      (∀ t ∈ done, t.status.terminal) ∧
      c.status = TStatus.processing ∧
      (∀ t ∈ rest, t.status ≠ TStatus.processing) ∧
      s.currentTask = some c.id) ∨
  (s.isProcessing = false ∧ (∀ t ∈ s.queue, t.status.terminal) ∧ s.currentTask = none)

/-- Shape of the queue at the point inside the `finally` block where the
single-flight flag has been cleared but the next pending task has not yet
been started: no task is processing. -/
def MidShape (s : QState) : Prop :=
  s.isProcessing = false ∧ s.currentTask = none ∧
  ∀ t ∈ s.queue, t.status ≠ TStatus.processing

/-- Every started event records the cumulative context current at that
moment (the payload of the last preceding `ctxUpdated`). -/
def startedCtxP (es : List QEvent) : Prop :=
  ∀ pre i ctx suf, es = pre ++ QEvent.started i ctx :: suf → ctx = lastCtx pre

/-- Every `ctxUpdated` event is preceded by the `notified` event of the same
task. -/
def notifBeforeCtxP (es : List QEvent) : Prop :=
  ∀ pre i m suf, es = pre ++ QEvent.ctxUpdated i m :: suf → QEvent.notified i ∈ pre

/-- The queue-service invariant components that do not mention the
single-flight flag: ids are consecutive insertion indices, the history is
the reversed id range (push mirrored by unshift, lines 47-48), and the
event trace is well-formed. -/
structure CoreInv (s : QState) : Prop where
  ids : s.queue.map QTask.id = List.range s.queue.length
  histEq : s.taskHistory = (List.range s.queue.length).reverse
  prevEq : s.previousResults = lastCtx s.events
  startedCtx : startedCtxP s.events
  notifCtx : notifBeforeCtxP s.events

/-- The full invariant at step boundaries. -/
def QInv (s : QState) : Prop := QueueShape s ∧ CoreInv s

/-- The invariant at the mid point of the `finally` block. -/
def QMidInv (s : QState) : Prop := MidShape s ∧ CoreInv s

/-- The surviving normalized relationship of `unknownCorpResponse`. -/
def wRelOk : Relationship :=
  { id := "rel-person-alice-org-acme", source := "person-alice"
    target := "org-acme", strength := 3 }

/-- Store with one empty entity array and one empty relationship array. -/
def c4Store0 : ArrayStore := { entArrays := [[]], relArrays := [[]] }

/-- Internal cumulative-context object: references both arrays of `c4Store0`. -/
def c4Internal : ResultRef := { entities := 0, relationships := 0 }

/-- What the caller receives from `getPreviousResults`. -/
def c4Ret : ResultRef := getPreviousResults c4Internal

/-- The store after the caller pushes `probeEntity` onto the entity array of
the RETURNED object. -/
def c4Store1 : ArrayStore := pushEntity c4Store0 c4Ret.entities probeEntity

/-! # Theorems -/

theorem jsMin_eq_min (a b : ℚ) : jsMin a b = min a b := by
  simp [jsMin, min_def]

/-! ## Generic list facts -/

theorem find?_append_of_none {α : Type} {p : α → Bool} {l₁ l₂ : List α}
    (h : l₁.find? p = none) : (l₁ ++ l₂).find? p = l₂.find? p := by
  rw [List.find?_append, h, Option.none_or]

/-- Splitting a list around an appended last element. -/
theorem append_singleton_decomp {α : Type} {es : List α} {e : α} {pre : List α} {x : α}
    {suf : List α} (h : es ++ [e] = pre ++ x :: suf) :
    (∃ suf', es = pre ++ x :: suf' ∧ suf = suf' ++ [e]) ∨ (pre = es ∧ x = e ∧ suf = []) := by
  rcases List.eq_nil_or_concat suf with rfl | ⟨suf', a, rfl⟩
  · right
    have h2 := List.append_inj' h (by simp)
    exact ⟨h2.1.symm, by simpa using h2.2.symm, rfl⟩
  · left
    have h' : es ++ [e] = (pre ++ x :: suf') ++ [a] := by simpa using h
    have h2 := List.append_inj' h' (by simp)
    have ha : e = a := by simpa using h2.2
    exact ⟨suf', h2.1, by simp [ha]⟩

/-- First match in a list whose prefix has no match. -/
theorem find?_first {α : Type} {p : α → Bool} {l₁ : List α} {a : α} (l₂ : List α)
    (h₁ : ∀ x ∈ l₁, p x = false) (ha : p a = true) :
    (l₁ ++ a :: l₂).find? p = some a := by
  have hn : l₁.find? p = none := List.find?_eq_none.mpr (by simpa using h₁)
  rw [find?_append_of_none hn, List.find?_cons_of_pos _ ha]

/-! ## Properties of the JS Map model -/

section KeyedMapLemmas

variable {α : Type} (key : α → String) (combine : α → α → α)

theorem any_key_eq_true {m : List α} {x : α} (h : key x ∈ m.map key) :
    (m.any fun y => key y == key x) = true := by
  simp only [List.any_eq_true, beq_iff_eq]
  rcases List.mem_map.mp h with ⟨y, hy, hk⟩
  exact ⟨y, hy, hk⟩

theorem jsMapSet_of_mem {m : List α} {x : α} (h : key x ∈ m.map key) :
    jsMapSet key m x = m.map (fun y => if key y == key x then x else y) := by
  rw [jsMapSet, if_pos (any_key_eq_true key h)]

theorem jsMapSet_of_not_mem {m : List α} {x : α} (h : key x ∉ m.map key) :
    jsMapSet key m x = m ++ [x] := by
  have hany : (m.any fun y => key y == key x) = false := by
    rw [List.any_eq_false]
    intro y hy
    simp only [beq_iff_eq]
    exact fun hk => h (List.mem_map.mpr ⟨y, hy, hk⟩)
  rw [jsMapSet, hany]
  simp

theorem jsMapSet_keys_of_mem {m : List α} {x : α} (h : key x ∈ m.map key) :
    (jsMapSet key m x).map key = m.map key := by
  rw [jsMapSet_of_mem key h, List.map_map]
  refine List.map_congr_left (fun y _ => ?_)
  by_cases hyx : key y = key x
  · simp [Function.comp, hyx]
  · simp [Function.comp, hyx]

theorem jsMapSet_keys_nodup {m : List α} {x : α} (h : (m.map key).Nodup) :
    ((jsMapSet key m x).map key).Nodup := by
  by_cases hm : key x ∈ m.map key
  · rw [jsMapSet_keys_of_mem key hm]; exact h
  · rw [jsMapSet_of_not_mem key hm, List.map_append]
    refine List.Nodup.append h (List.nodup_singleton _) ?_
    intro a ha hb
    simp only [List.map_cons, List.map_nil, List.mem_singleton] at hb
    exact hm (hb ▸ ha)

theorem find?_mapReplace_self {m : List α} {x : α} (h : key x ∈ m.map key) :
    (m.map fun y => if key y == key x then x else y).find? (fun y => key y == key x)
      = some x := by
  induction m with
  | nil => simp at h
  | cons a m ih =>
    by_cases hax : key a = key x
    · simp only [List.map_cons, if_pos (beq_iff_eq.mpr hax)]
      exact List.find?_cons_of_pos _ (by simp)
    · have hax' : (key a == key x) = false := beq_eq_false_iff_ne.mpr hax
      simp only [List.map_cons, hax']
      rw [if_neg (by simp [hax]), List.find?_cons_of_neg _ (by simp [hax])]
      refine ih ?_
      rcases List.mem_map.mp h with ⟨y, hy, hk⟩
      rcases List.mem_cons.mp hy with rfl | hy'
      · exact absurd hk hax
      · exact List.mem_map.mpr ⟨y, hy', hk⟩

theorem find?_jsMapSet_self (m : List α) (x : α) :
    (jsMapSet key m x).find? (fun y => key y == key x) = some x := by
  by_cases h : key x ∈ m.map key
  · rw [jsMapSet_of_mem key h]
    exact find?_mapReplace_self key h
  · rw [jsMapSet_of_not_mem key h]
    have hn : m.find? (fun y => key y == key x) = none := by
      rw [List.find?_eq_none]
      intro y hy
      simp only [beq_iff_eq]
      exact fun hk => h (List.mem_map.mpr ⟨y, hy, hk⟩)
    rw [find?_append_of_none hn, List.find?_cons_of_pos _ (by simp)]

theorem find?_mapReplace_ne {m : List α} {x : α} {k : String} (hk : key x ≠ k) :
    (m.map fun y => if key y == key x then x else y).find? (fun y => key y == k)
      = m.find? (fun y => key y == k) := by
  induction m with
  | nil => rfl
  | cons a m ih =>
    by_cases hax : key a = key x
    · have h1 : (if key a == key x then x else a) = x := by simp [hax]
      have h2 : (key a == k) = false := beq_eq_false_iff_ne.mpr (hax ▸ hk)
      simp only [List.map_cons, h1]
      rw [List.find?_cons_of_neg _ (by simp [hk]), List.find?_cons_of_neg _ (by simp [hax ▸ hk]), ih]
    · have h1 : (if key a == key x then x else a) = a := by simp [hax]
      simp only [List.map_cons, h1]
      by_cases hak : key a = k
      · rw [List.find?_cons_of_pos _ (by simp [hak]), List.find?_cons_of_pos _ (by simp [hak])]
      · rw [List.find?_cons_of_neg _ (by simp [hak]), List.find?_cons_of_neg _ (by simp [hak]), ih]

theorem find?_jsMapSet_ne {m : List α} {x : α} {k : String} (hk : key x ≠ k) :
    (jsMapSet key m x).find? (fun y => key y == k) = m.find? (fun y => key y == k) := by
  by_cases h : key x ∈ m.map key
  · rw [jsMapSet_of_mem key h]
    exact find?_mapReplace_ne key hk
  · rw [jsMapSet_of_not_mem key h, List.find?_append]
    cases hm : m.find? (fun y => key y == k) with
    | some v => rfl
    | none =>
      simp only [Option.none_or]
      rw [List.find?_cons_of_neg _ (by simp [hk]), List.find?_nil]

theorem find?_jsMapStep_self (hkey : ∀ ex x, key (combine ex x) = key ex) (m : List α) (x : α) :
    (jsMapStep key combine m x).find? (fun y => key y == key x)
      = some (match m.find? (fun y => key y == key x) with
              | some ex => combine ex x
              | none => x) := by
  rw [jsMapStep]
  cases hm : m.find? (fun y => key y == key x) with
  | none => exact find?_jsMapSet_self key m x
  | some ex =>
    have hex : key ex = key x := by
      have := List.find?_some hm
      simpa using this
    have h2 : key (combine ex x) = key x := by rw [hkey]; exact hex
    have h3 := find?_jsMapSet_self key m (combine ex x)
    rw [h2] at h3
    exact h3

theorem find?_jsMapStep_ne (hkey : ∀ ex x, key (combine ex x) = key ex)
    {m : List α} {x : α} {k : String} (hk : key x ≠ k) :
    (jsMapStep key combine m x).find? (fun y => key y == k)
      = m.find? (fun y => key y == k) := by
  rw [jsMapStep]
  cases hm : m.find? (fun y => key y == key x) with
  | none => exact find?_jsMapSet_ne key hk
  | some ex =>
    have hex : key ex = key x := by
      have := List.find?_some hm
      simpa using this
    have h2 : key (combine ex x) ≠ k := by rw [hkey, hex]; exact hk
    exact find?_jsMapSet_ne key h2

theorem jsMapStep_keys (hkey : ∀ ex x, key (combine ex x) = key ex) (m : List α) (x : α) :
    (jsMapStep key combine m x).map key
      = if key x ∈ m.map key then m.map key else m.map key ++ [key x] := by
  rw [jsMapStep]
  cases hm : m.find? (fun y => key y == key x) with
  | none =>
    have hnm : key x ∉ m.map key := by
      intro hmem
      rcases List.mem_map.mp hmem with ⟨y, hy, hk⟩
      have := List.find?_eq_none.mp hm y hy
      simp [hk] at this
    rw [if_neg hnm, jsMapSet_of_not_mem key hnm, List.map_append]
    rfl
  | some ex =>
    have hex : key ex = key x := by
      have := List.find?_some hm
      simpa using this
    have hmem : key x ∈ m.map key :=
      hex ▸ List.mem_map.mpr ⟨ex, List.mem_of_find?_eq_some hm, rfl⟩
    have h2 : key (combine ex x) ∈ m.map key := by rw [hkey, hex]; exact hmem
    rw [if_pos hmem, jsMapSet_keys_of_mem key h2]

theorem jsMapStep_keys_nodup (hkey : ∀ ex x, key (combine ex x) = key ex)
    {m : List α} {x : α} (h : (m.map key).Nodup) :
    ((jsMapStep key combine m x).map key).Nodup := by
  rw [jsMapStep_keys key combine hkey]
  by_cases hmem : key x ∈ m.map key
  · rw [if_pos hmem]; exact h
  · rw [if_neg hmem]
    refine List.Nodup.append h (List.nodup_singleton _) ?_
    intro a ha hb
    simp only [List.mem_singleton] at hb
    exact hmem (hb ▸ ha)

theorem foldl_jsMapStep_find?_ne (hkey : ∀ ex x, key (combine ex x) = key ex)
    {l : List α} {k : String} (hl : ∀ y ∈ l, key y ≠ k) (m : List α) :
    (l.foldl (jsMapStep key combine) m).find? (fun y => key y == k)
      = m.find? (fun y => key y == k) := by
  induction l generalizing m with
  | nil => rfl
  | cons a l ih =>
    rw [List.foldl_cons, ih (fun y hy => hl y (List.mem_cons_of_mem a hy))]
    exact find?_jsMapStep_ne key combine hkey (hl a (List.mem_cons_self a l))

theorem foldl_jsMapStep_keys_nodup (hkey : ∀ ex x, key (combine ex x) = key ex)
    (l : List α) {m : List α} (h : (m.map key).Nodup) :
    ((l.foldl (jsMapStep key combine) m).map key).Nodup := by
  induction l generalizing m with
  | nil => exact h
  | cons a l ih => exact ih (jsMapStep_keys_nodup key combine hkey h)

theorem foldl_jsMapSet_keys_nodup (l : List α) {m : List α} (h : (m.map key).Nodup) :
    ((l.foldl (jsMapSet key) m).map key).Nodup := by
  induction l generalizing m with
  | nil => exact h
  | cons a l ih => exact ih (jsMapSet_keys_nodup key h)

theorem foldl_jsMapSet_eq_append {l : List α} {acc : List α}
    (h : (acc.map key ++ l.map key).Nodup) : l.foldl (jsMapSet key) acc = acc ++ l := by
  induction l generalizing acc with
  | nil => simp
  | cons a l ih =>
    have hmem : key a ∉ acc.map key := by
      intro hmem
      have := (List.nodup_append.mp h).2.2
      exact this hmem (by simp)
    rw [List.foldl_cons, jsMapSet_of_not_mem key hmem]
    have h' : ((acc ++ [a]).map key ++ l.map key).Nodup := by
      rw [List.map_append]
      simpa [List.append_assoc] using h
    rw [ih h']
    simp

theorem foldl_jsMapStep_keys (hkey : ∀ ex x, key (combine ex x) = key ex)
    {l : List α} (hnd : (l.map key).Nodup) (m : List α) :
    (l.foldl (jsMapStep key combine) m).map key
      = m.map key ++ (l.filter (fun y => decide (key y ∉ m.map key))).map key := by
  induction l generalizing m with
  | nil => simp
  | cons a l ih =>
    have hndl : (l.map key).Nodup := (List.nodup_cons.mp (by simpa using hnd)).2
    have hal : key a ∉ l.map key := (List.nodup_cons.mp (by simpa using hnd)).1
    rw [List.foldl_cons, ih hndl, jsMapStep_keys key combine hkey]
    by_cases hmem : key a ∈ m.map key
    · rw [if_pos hmem]
      have hfa : (fun y => decide (key y ∉ m.map key)) a = false := by simpa using hmem
      rw [List.filter_cons_of_neg (by simpa using hfa)]
    · rw [if_neg hmem]
      have hfa : (fun y => decide (key y ∉ m.map key)) a = true := by simpa using hmem
      rw [List.filter_cons_of_pos (by simpa using hfa)]
      have hcongr :
          l.filter (fun y => decide (key y ∉ m.map key ++ [key a]))
            = l.filter (fun y => decide (key y ∉ m.map key)) := by
        refine List.filter_congr (fun y hy => ?_)
        have hne : key y ≠ key a := fun hcontra =>
          hal (hcontra ▸ List.mem_map.mpr ⟨y, hy, rfl⟩)
        simp [hne]
      rw [hcongr]
      simp

end KeyedMapLemmas

/-! ## JS Set dedup properties -/

theorem foldl_jsSetAdd_nodup (l : List String) {acc : List String} (h : acc.Nodup) :
    (l.foldl jsSetAdd acc).Nodup := by
  induction l generalizing acc with
  | nil => exact h
  | cons a l ih =>
    rw [List.foldl_cons, jsSetAdd]
    by_cases hmem : a ∈ acc
    · rw [if_pos hmem]; exact ih h
    · rw [if_neg hmem]
      refine ih ?_
      refine List.Nodup.append h (List.nodup_singleton _) ?_
      intro b hb hb'
      simp only [List.mem_singleton] at hb'
      exact hmem (hb' ▸ hb)

theorem mem_foldl_jsSetAdd (l : List String) (acc : List String) (a : String) :
    a ∈ l.foldl jsSetAdd acc ↔ a ∈ acc ∨ a ∈ l := by
  induction l generalizing acc with
  | nil => simp
  | cons b l ih =>
    rw [List.foldl_cons, jsSetAdd]
    by_cases hmem : b ∈ acc
    · rw [if_pos hmem, ih]
      constructor
      · rintro (h | h)
        · exact Or.inl h
        · exact Or.inr (List.mem_cons_of_mem b h)
      · rintro (h | h)
        · exact Or.inl h
        · rcases List.mem_cons.mp h with rfl | h'
          · exact Or.inl hmem
          · exact Or.inr h'
    · rw [if_neg hmem, ih]
      simp only [List.mem_append, List.mem_singleton, List.mem_cons]
      tauto

theorem jsSetOfList_nodup (l : List String) : (jsSetOfList l).Nodup :=
  foldl_jsSetAdd_nodup l List.nodup_nil

theorem mem_jsSetOfList (l : List String) (a : String) : a ∈ jsSetOfList l ↔ a ∈ l := by
  rw [jsSetOfList, mem_foldl_jsSetAdd]
  simp

/-! ## Locating a record by id -/

theorem find?_of_mem_nodup {α κ : Type} [BEq κ] [LawfulBEq κ] (key : α → κ)
    {m : List α} {p : α} {k : κ}
    (hnd : (m.map key).Nodup) (hp : p ∈ m) (hk : key p = k) :
    m.find? (fun y => key y == k) = some p := by
  induction m with
  | nil => simp at hp
  | cons a m ih =>
    rcases List.mem_cons.mp hp with rfl | hp'
    · exact List.find?_cons_of_pos _ (by simp [hk])
    · have hnd' : (∀ x ∈ m, ¬key x = key a) ∧ (m.map key).Nodup := by simpa using hnd
      have hka : key a ≠ k := by
        intro hcontra
        exact hnd'.1 p hp' (by rw [hk, hcontra])
      rw [List.find?_cons_of_neg _ (by simp [hka])]
      exact ih hnd'.2 hp'

/-- Key facts from a no-duplicate key list split around one element. -/
theorem nodup_decomp_mid {α κ : Type} (key : α → κ) {c₁ : List α} {r : α} {c₂ : List α}
    (h : ((c₁ ++ r :: c₂).map key).Nodup) :
    (∀ y ∈ c₁, key y ≠ key r) ∧ (∀ y ∈ c₂, key y ≠ key r) := by
  rw [List.map_append, List.map_cons] at h
  rcases List.nodup_append.mp h with ⟨h₁, h₂, hdisj⟩
  rcases List.nodup_cons.mp h₂ with ⟨hr, h₃⟩
  constructor
  · intro y hy hcontra
    exact hdisj (List.mem_map.mpr ⟨y, hy, rfl⟩) (by rw [hcontra]; simp)
  · intro y hy hcontra
    exact hr (hcontra ▸ List.mem_map.mpr ⟨y, hy, rfl⟩)

/-! ## Claim C2 -/

/-- C2: for every pair of ExtractionResults and every incoming relationship,
an id already present in `previous` is reinforced to
`min(10, previous.strength + incoming.strength * 0.5)`, and a fresh id is
inserted verbatim (uncapped). -/
theorem C2_relationship_merge (prev cur : ExtractionResult) (r : Relationship)
    (hp : (prev.relationships.map Relationship.id).Nodup)
    (hc : (cur.relationships.map Relationship.id).Nodup)
    (hmem : r ∈ cur.relationships) :
    (∀ p ∈ prev.relationships, p.id = r.id →
        (mergeResults prev cur).relationships.find? (fun x => x.id == r.id)
          = some { p with strength := min 10 (p.strength + r.strength * (1 / 2)) }) ∧
    ((∀ p ∈ prev.relationships, p.id ≠ r.id) →
        (mergeResults prev cur).relationships.find? (fun x => x.id == r.id) = some r) := by
  have hkey : ∀ ex x : Relationship, Relationship.id (relCombine ex x) = Relationship.id ex :=
    fun _ _ => rfl
  have hbase : prev.relationships.foldl (jsMapSet Relationship.id) [] = prev.relationships := by
    have h := @foldl_jsMapSet_eq_append Relationship Relationship.id
      prev.relationships [] (by simpa using hp)
    simpa using h
  obtain ⟨c₁, c₂, hdecomp⟩ := List.append_of_mem hmem
  have hnd : ((c₁ ++ r :: c₂).map Relationship.id).Nodup := hdecomp ▸ hc
  obtain ⟨h₁, h₂⟩ := nodup_decomp_mid Relationship.id hnd
  have hmerged : (mergeResults prev cur).relationships
      = c₂.foldl (jsMapStep Relationship.id relCombine)
          (jsMapStep Relationship.id relCombine
            (c₁.foldl (jsMapStep Relationship.id relCombine) prev.relationships) r) := by
    show jsMerge Relationship.id relCombine prev.relationships cur.relationships = _
    rw [jsMerge, hbase, hdecomp, List.foldl_append, List.foldl_cons]
  have hfindM₁ : (c₁.foldl (jsMapStep Relationship.id relCombine) prev.relationships).find?
        (fun y => y.id == r.id)
      = prev.relationships.find? (fun y => y.id == r.id) :=
    foldl_jsMapStep_find?_ne Relationship.id relCombine hkey h₁ prev.relationships
  have hstep := find?_jsMapStep_self Relationship.id relCombine hkey
    (c₁.foldl (jsMapStep Relationship.id relCombine) prev.relationships) r
  have hpass := foldl_jsMapStep_find?_ne Relationship.id relCombine hkey h₂
    (jsMapStep Relationship.id relCombine
      (c₁.foldl (jsMapStep Relationship.id relCombine) prev.relationships) r)
  have hfinal : (mergeResults prev cur).relationships.find? (fun x => x.id == r.id)
      = some (match prev.relationships.find? (fun y => y.id == r.id) with
              | some ex => relCombine ex r
              | none => r) := by
    rw [hmerged, hpass, hstep, hfindM₁]
    cases prev.relationships.find? (fun y => y.id == r.id) <;> rfl
  constructor
  · intro p hpmem hpid
    have hfp : prev.relationships.find? (fun y => y.id == r.id) = some p :=
      find?_of_mem_nodup Relationship.id hp hpmem hpid
    rw [hfinal, hfp]
    simp only [relCombine, jsMin_eq_min]
  · intro hnone
    have hfn : prev.relationships.find? (fun y => y.id == r.id) = none :=
      List.find?_eq_none.mpr (fun y hy => by simp [hnone y hy])
    rw [hfinal, hfn]

/-- C2 witness: reinforcing strength 3 with incoming strength 4 yields
exactly 5, and a fresh relationship of strength 12 is inserted verbatim. -/
theorem C2_relationship_merge_witness :
    ((mergeResults wPrevER wIncER).relationships.find? (fun x => x.id == wIncRel.id)
        = some { wPrevRel with
                 strength := min 10 (wPrevRel.strength + wIncRel.strength * (1 / 2)) }) ∧
    min (10 : ℚ) (wPrevRel.strength + wIncRel.strength * (1 / 2)) = 5 ∧
    ((mergeResults wPrevER wIncER).relationships.find? (fun x => x.id == wNewRel.id)
        = some wNewRel) := by
  refine ⟨?_, ?_, ?_⟩
  · exact (C2_relationship_merge wPrevER wIncER wIncRel (by decide) (by decide)
      (by decide)).1 wPrevRel (by decide) (by decide)
  · have h5 : wPrevRel.strength + wIncRel.strength * (1 / 2) = (5 : ℚ) := by
      norm_num [wPrevRel, wIncRel]
    rw [h5]
    exact min_eq_right (by norm_num)
  · exact (C2_relationship_merge wPrevER wIncER wNewRel (by decide) (by decide)
      (by decide)).2 (by decide)

/-! ## Claim C3 -/

/-- C3: for every pair of ExtractionResults and every incoming entity, an id
already present in `previous` is updated with the deduplicated alias union
and the longer-summary rule, a fresh id is inserted verbatim, and the output
lists previous entities first (original order) followed by new entities in
incoming order. -/
theorem C3_entity_merge (prev cur : ExtractionResult) (e : Entity)
    (hp : (prev.entities.map Entity.id).Nodup)
    (hc : (cur.entities.map Entity.id).Nodup)
    (hmem : e ∈ cur.entities) :
    (∀ p ∈ prev.entities, p.id = e.id →
        (mergeResults prev cur).entities.find? (fun x => x.id == e.id)
          = some (entCombine p e)) ∧
    ((∀ p ∈ prev.entities, p.id ≠ e.id) →
        (mergeResults prev cur).entities.find? (fun x => x.id == e.id) = some e) ∧
    ((mergeResults prev cur).entities.map Entity.id
        = prev.entities.map Entity.id
          ++ (cur.entities.filter
                (fun x => decide (x.id ∉ prev.entities.map Entity.id))).map Entity.id) ∧
    (∀ p i : Entity,
        (entCombine p i).id = p.id ∧
        (entCombine p i).name = p.name ∧
        (entCombine p i).type = p.type ∧
        (entCombine p i).aliases.Nodup ∧
        (∀ a : String, a ∈ (entCombine p i).aliases ↔ a ∈ p.aliases ∨ a ∈ i.aliases) ∧
        (entCombine p i).summary
          = if i.summary ≠ "" ∧ (p.summary = "" ∨ p.summary.length < i.summary.length)
            then i.summary else p.summary) := by
  have hkey : ∀ ex x : Entity, Entity.id (entCombine ex x) = Entity.id ex :=
    fun _ _ => rfl
  have hbase : prev.entities.foldl (jsMapSet Entity.id) [] = prev.entities := by
    have h := @foldl_jsMapSet_eq_append Entity Entity.id
      prev.entities [] (by simpa using hp)
    simpa using h
  obtain ⟨c₁, c₂, hdecomp⟩ := List.append_of_mem hmem
  have hnd : ((c₁ ++ e :: c₂).map Entity.id).Nodup := hdecomp ▸ hc
  obtain ⟨h₁, h₂⟩ := nodup_decomp_mid Entity.id hnd
  have hmerged : (mergeResults prev cur).entities
      = c₂.foldl (jsMapStep Entity.id entCombine)
          (jsMapStep Entity.id entCombine
            (c₁.foldl (jsMapStep Entity.id entCombine) prev.entities) e) := by
    show jsMerge Entity.id entCombine prev.entities cur.entities = _
    rw [jsMerge, hbase, hdecomp, List.foldl_append, List.foldl_cons]
  have hfindM₁ : (c₁.foldl (jsMapStep Entity.id entCombine) prev.entities).find?
        (fun y => y.id == e.id)
      = prev.entities.find? (fun y => y.id == e.id) :=
    foldl_jsMapStep_find?_ne Entity.id entCombine hkey h₁ prev.entities
  have hstep := find?_jsMapStep_self Entity.id entCombine hkey
    (c₁.foldl (jsMapStep Entity.id entCombine) prev.entities) e
  have hpass := foldl_jsMapStep_find?_ne Entity.id entCombine hkey h₂
    (jsMapStep Entity.id entCombine
      (c₁.foldl (jsMapStep Entity.id entCombine) prev.entities) e)
  have hfinal : (mergeResults prev cur).entities.find? (fun x => x.id == e.id)
      = some (match prev.entities.find? (fun y => y.id == e.id) with
              | some ex => entCombine ex e
              | none => e) := by
    rw [hmerged, hpass, hstep, hfindM₁]
    cases prev.entities.find? (fun y => y.id == e.id) <;> rfl
  refine ⟨?_, ?_, ?_, ?_⟩
  · intro p hpmem hpid
    have hfp : prev.entities.find? (fun y => y.id == e.id) = some p :=
      find?_of_mem_nodup Entity.id hp hpmem hpid
    rw [hfinal, hfp]
  · intro hnone
    have hfn : prev.entities.find? (fun y => y.id == e.id) = none :=
      List.find?_eq_none.mpr (fun y hy => by simp [hnone y hy])
    rw [hfinal, hfn]
  · have hkeys := foldl_jsMapStep_keys Entity.id entCombine hkey hc prev.entities
    show (jsMerge Entity.id entCombine prev.entities cur.entities).map Entity.id = _
    rw [jsMerge, hbase]
    exact hkeys
  · intro p i
    refine ⟨rfl, rfl, rfl, jsSetOfList_nodup _, ?_, rfl⟩
    intro a
    rw [show (entCombine p i).aliases = jsSetOfList (p.aliases ++ i.aliases) from rfl,
        mem_jsSetOfList, List.mem_append]

/-- C3 witness: merging `person-jane-doe` aliases `["J. Doe"]` with incoming
aliases `["J. Doe", "Jane"]` yields exactly `["J. Doe", "Jane"]`, the longer
incoming summary wins, the fresh entity `org-acme` is inserted verbatim, and
the output order is previous-then-new. -/
theorem C3_entity_merge_witness :
    ((mergeResults wPrevEE wIncEE).entities.find? (fun x => x.id == wIncEnt.id)
        = some (entCombine wPrevEnt wIncEnt)) ∧
    entCombine wPrevEnt wIncEnt
      = { id := "person-jane-doe", name := "Jane Doe", type := .person
          aliases := ["J. Doe", "Jane"], summary := "A person of interest" } ∧
    ((mergeResults wPrevEE wIncEE).entities.find? (fun x => x.id == wNewEnt.id)
        = some wNewEnt) ∧
    (mergeResults wPrevEE wIncEE).entities.map Entity.id
      = ["person-jane-doe", "org-acme"] := by
  refine ⟨?_, by decide, ?_, by decide⟩
  · exact (C3_entity_merge wPrevEE wIncEE wIncEnt (by decide) (by decide)
      (by decide)).1 wPrevEnt (by decide) (by decide)
  · exact (C3_entity_merge wPrevEE wIncEE wNewEnt (by decide) (by decide)
      (by decide)).2.1 (by decide)

/-! ## Claim C10 -/

/-- C10: for every pair of input ExtractionResults — duplicate ids inside the
inputs included — the merge output has unique entity ids and unique
relationship ids. -/
theorem C10_merge_id_uniqueness (prev cur : ExtractionResult) :
    ((mergeResults prev cur).entities.map Entity.id).Nodup ∧
    ((mergeResults prev cur).relationships.map Relationship.id).Nodup := by
  constructor
  · have hbase : ((prev.entities.foldl (jsMapSet Entity.id) []).map Entity.id).Nodup :=
      foldl_jsMapSet_keys_nodup Entity.id prev.entities (by simp)
    exact foldl_jsMapStep_keys_nodup Entity.id entCombine (fun _ _ => rfl)
      cur.entities hbase
  · have hbase : ((prev.relationships.foldl (jsMapSet Relationship.id) []).map
        Relationship.id).Nodup :=
      foldl_jsMapSet_keys_nodup Relationship.id prev.relationships (by simp)
    exact foldl_jsMapStep_keys_nodup Relationship.id relCombine (fun _ _ => rfl)
      cur.relationships hbase

/-! ## Claim C1 -/

/-- C1 counterexample: the end-to-end scenario does NOT produce the entity id
`location-paris` — `getEntityTypePrefix` maps the type `location` to the
prefix `loc`, so Paris gets id `loc-paris`. -/
theorem C1_end_to_end_counterexample :
    ¬ ((mergeResults emptyResult (formatResult aliceBobParisResponse)).entities.map Entity.id
        = ["person-alice", "person-bob", "location-paris"]) := by decide

/-- C1 (amended): normalizing the scenario response and merging it into the
empty cumulative context yields exactly the 3 entities `person-alice`,
`person-bob`, `loc-paris` and the 1 relationship
`rel-person-alice-person-bob` with strength 5; in general every entity id is
the entity TYPE PREFIX (person / org / loc / date / other) plus the name
lowercased with whitespace runs replaced by hyphens. -/
theorem C1_end_to_end_amended :
    ((mergeResults emptyResult (formatResult aliceBobParisResponse)).entities.map Entity.id
        = ["person-alice", "person-bob", "loc-paris"]) ∧
    ((mergeResults emptyResult (formatResult aliceBobParisResponse)).relationships
        = [{ id := "rel-person-alice-person-bob", source := "person-alice",
             target := "person-bob", strength := 5 }]) ∧
    (∀ res : DeepSeekResult,
        (formatResult res).entities.map Entity.id
          = res.entities.map
              (fun e => getEntityTypePrefix e.type ++ "-" ++ normalizeName e.name)) := by
  refine ⟨by decide, by decide, fun res => ?_⟩
  have h : (formatResult res).entities = res.entities.map formatEntity := rfl
  rw [h, List.map_map]
  rfl

/-! ## Claim C9 -/

/-- C9: every relationship surviving normalization references entity ids
present in the accompanying entity list, and exactly the relationships whose
source AND target names resolve against the entities of the same response
survive — unresolvable ones are dropped rather than raising an error. -/
theorem C9_relationship_resolution (res : DeepSeekResult) :
    (∀ r ∈ (formatResult res).relationships,
        r.source ∈ (formatResult res).entities.map Entity.id ∧
        r.target ∈ (formatResult res).entities.map Entity.id) ∧
    ((formatResult res).relationships.length
        = (res.relationships.filter (fun dr =>
            (res.entities.any (fun e => e.name == dr.source)) &&
            (res.entities.any (fun e => e.name == dr.target)))).length) := by
  constructor
  · intro r hr
    have hr' : r ∈ res.relationships.filterMap (resolveRel (formatEntities res)) := hr
    rcases List.mem_filterMap.mp hr' with ⟨dr, _, hf⟩
    rw [resolveRel] at hf
    cases hs : (formatEntities res).find? (fun e => e.name == dr.source) with
    | none => rw [hs] at hf; cases hf
    | some se =>
      cases ht : (formatEntities res).find? (fun e => e.name == dr.target) with
      | none => rw [hs, ht] at hf; cases hf
      | some te =>
        rw [hs, ht] at hf
        have hse : se ∈ formatEntities res := List.mem_of_find?_eq_some hs
        have hte : te ∈ formatEntities res := List.mem_of_find?_eq_some ht
        have hrec : r = { id := "rel-" ++ se.id ++ "-" ++ te.id, source := se.id,
                          target := te.id, strength := dr.strength } := by
          cases hf
          rfl
        subst hrec
        exact ⟨List.mem_map.mpr ⟨se, hse, rfl⟩, List.mem_map.mpr ⟨te, hte, rfl⟩⟩
  · have hlen : ∀ (l : List DeepSeekRelationship),
        (l.filterMap (resolveRel (formatEntities res))).length
          = (l.filter (fun dr =>
              (res.entities.any (fun e => e.name == dr.source)) &&
              (res.entities.any (fun e => e.name == dr.target)))).length := by
      intro l
      induction l with
      | nil => rfl
      | cons dr l ih =>
        have hiff : (resolveRel (formatEntities res) dr).isSome
            = ((res.entities.any (fun e => e.name == dr.source)) &&
               (res.entities.any (fun e => e.name == dr.target))) := by
          have hany : ∀ nm : String,
              ((formatEntities res).find? (fun e => e.name == nm)).isSome
                = res.entities.any (fun e => e.name == nm) := by
            intro nm
            cases hf : (formatEntities res).find? (fun e => e.name == nm) with
            | some x =>
              have hx := List.mem_of_find?_eq_some hf
              have hpx := List.find?_some hf
              rcases List.mem_map.mp hx with ⟨e, he, rfl⟩
              have hb : res.entities.any (fun e => e.name == nm) = true :=
                List.any_eq_true.mpr ⟨e, he, by simpa using hpx⟩
              rw [hb]
              rfl
            | none =>
              have hb : res.entities.any (fun e => e.name == nm) = false := by
                rw [List.any_eq_false]
                intro e he
                have := List.find?_eq_none.mp hf (formatEntity e)
                  (List.mem_map.mpr ⟨e, he, rfl⟩)
                simpa using this
              rw [hb]
              rfl
          rw [resolveRel]
          cases hs : (formatEntities res).find? (fun e => e.name == dr.source) with
          | none =>
            have h1 : res.entities.any (fun e => e.name == dr.source) = false := by
              have := hany dr.source
              rw [hs] at this
              simpa using this.symm
            rw [h1]
            simp
          | some se =>
            have h1 : res.entities.any (fun e => e.name == dr.source) = true := by
              have := hany dr.source
              rw [hs] at this
              simpa using this.symm
            cases ht : (formatEntities res).find? (fun e => e.name == dr.target) with
            | none =>
              have h2 : res.entities.any (fun e => e.name == dr.target) = false := by
                have := hany dr.target
                rw [ht] at this
                simpa using this.symm
              rw [h1, h2]
              simp
            | some te =>
              have h2 : res.entities.any (fun e => e.name == dr.target) = true := by
                have := hany dr.target
                rw [ht] at this
                simpa using this.symm
              rw [h1, h2]
              simp
        rw [List.filterMap_cons, List.filter_cons]
        cases hro : resolveRel (formatEntities res) dr with
        | none =>
          have : ((res.entities.any (fun e => e.name == dr.source)) &&
              (res.entities.any (fun e => e.name == dr.target))) = false := by
            rw [← hiff, hro]
            rfl
          rw [this]
          simpa using ih
        | some rr =>
          have : ((res.entities.any (fun e => e.name == dr.source)) &&
              (res.entities.any (fun e => e.name == dr.target))) = true := by
            rw [← hiff, hro]
            rfl
          rw [this]
          simpa using ih
    exact hlen res.relationships

/-- C9 witness: in `unknownCorpResponse` the relationship to `Unknown Corp`
is dropped, the resolvable one survives with endpoint ids present in the
entity list, and the count matches the resolvable count. -/
theorem C9_relationship_resolution_witness :
    (wRelOk.source ∈ (formatResult unknownCorpResponse).entities.map Entity.id ∧
     wRelOk.target ∈ (formatResult unknownCorpResponse).entities.map Entity.id) ∧
    ((formatResult unknownCorpResponse).relationships.length
        = (unknownCorpResponse.relationships.filter (fun dr =>
            (unknownCorpResponse.entities.any (fun e => e.name == dr.source)) &&
            (unknownCorpResponse.entities.any (fun e => e.name == dr.target)))).length) ∧
    (formatResult unknownCorpResponse).relationships = [wRelOk] := by
  refine ⟨(C9_relationship_resolution unknownCorpResponse).1 wRelOk (by decide),
    (C9_relationship_resolution unknownCorpResponse).2, by decide⟩

/-! ## Claim C4 -/

/-- C4 (code bug witness): `getPreviousResults` returns an object sharing the
internal arrays.  The returned object carries the same array reference, a
caller push onto the returned `entities` array changes the value of the
internal cumulative context, and a subsequent merge from the internal
context sees the pushed entity. -/
theorem C4_shallow_copy_shares_state :
    c4Ret.entities = c4Internal.entities ∧
    readResult c4Store1 c4Internal ≠ readResult c4Store0 c4Internal ∧
    readResult c4Store1 c4Internal
      = { entities := [probeEntity], relationships := [] } ∧
    mergeResults (readResult c4Store1 c4Internal) emptyResult
      ≠ mergeResults (readResult c4Store0 c4Internal) emptyResult := by decide

/-! ## Queue support lemmas -/

theorem markProcessing_none_all {q : List QTask} (h : markProcessing q = none) :
    ∀ t ∈ q, t.status ≠ TStatus.pending := by
  induction q with
  | nil => intro t ht; cases ht
  | cons t ts ih =>
    simp only [markProcessing] at h
    by_cases hts : t.status = TStatus.pending
    · rw [if_pos hts] at h
      cases h
    · rw [if_neg hts] at h
      have h' : markProcessing ts = none := Option.map_eq_none'.mp h
      intro x hx
      rcases List.mem_cons.mp hx with rfl | hx'
      · exact hts
      · exact ih h' x hx'

/-- What a successful `findIndex` for a pending task tells us: the queue
splits at the first pending task, which is returned marked `processing`. -/
theorem markProcessing_some_eq {q : List QTask} {c : QTask} {q' : List QTask}
    (h : markProcessing q = some (c, q')) :
    ∃ A p B, q = A ++ p :: B ∧ (∀ t ∈ A, t.status ≠ TStatus.pending) ∧
      p.status = TStatus.pending ∧ c = { p with status := TStatus.processing } ∧
      q' = A ++ { p with status := TStatus.processing } :: B := by
  induction q generalizing c q' with
  | nil => cases h
  | cons t ts ih =>
    simp only [markProcessing] at h
    by_cases hts : t.status = TStatus.pending
    · rw [if_pos hts] at h
      have h1 := Option.some.inj h
      refine ⟨[], t, ts, rfl, ?_, hts, ?_, ?_⟩
      · intro x hx
        cases hx
      · exact (congrArg Prod.fst h1).symm
      · have h2 : ({ t with status := TStatus.processing } : QTask) :: ts = q' :=
          congrArg Prod.snd h1
        rw [← h2]
        rfl
    · rw [if_neg hts] at h
      rcases Option.map_eq_some'.mp h with ⟨pq, hm, heq⟩
      obtain ⟨c0, q0⟩ := pq
      obtain ⟨A, p, B, hsp, hA, hp, hceq, hq0⟩ := ih hm
      have hfst : c0 = c := congrArg Prod.fst heq
      have hsnd : t :: q0 = q' := congrArg Prod.snd heq
      refine ⟨t :: A, p, B, ?_, ?_, hp, ?_, ?_⟩
      · rw [hsp]
        rfl
      · intro x hx
        rcases List.mem_cons.mp hx with rfl | hx'
        · exact hts
        · exact hA x hx'
      · exact hfst.symm.trans hceq
      · rw [← hsnd, hq0]
        rfl

theorem not_pending_processing_terminal {st : TStatus} (h1 : st ≠ TStatus.pending)
    (h2 : st ≠ TStatus.processing) : st.terminal := by
  cases st <;> simp_all [TStatus.terminal, TStatus.terminalB]

theorem terminal_ne_processing {st : TStatus} (h : st.terminal) :
    st ≠ TStatus.processing := by
  cases st <;> simp_all [TStatus.terminal, TStatus.terminalB]

theorem eq_of_mem_nodup_key {α κ : Type} (key : α → κ) {l : List α} {a b : α}
    (hnd : (l.map key).Nodup) (ha : a ∈ l) (hb : b ∈ l) (hk : key a = key b) : a = b := by
  induction l with
  | nil => cases ha
  | cons x l ih =>
    have hx : (∀ y ∈ l, ¬key y = key x) ∧ (l.map key).Nodup := by simpa using hnd
    have hnd1 : ∀ y ∈ l, key y ≠ key x := fun y hy => hx.1 y hy
    have hnd2 : (l.map key).Nodup := hx.2
    rcases List.mem_cons.mp ha with rfl | ha'
    · rcases List.mem_cons.mp hb with rfl | hb'
      · rfl
      · exact absurd hk.symm (hnd1 b hb')
    · rcases List.mem_cons.mp hb with rfl | hb'
      · exact absurd hk (hnd1 a ha')
      · exact ih hnd2 ha' hb'

theorem reverse_range_succ (n : Nat) :
    (List.range (n + 1)).reverse = n :: (List.range n).reverse := by
  rw [List.range_succ, List.reverse_append]
  rfl

theorem jsFindIndexAux_reverse_range {k : Nat} (n i : Nat) (hk : k < n) :
    jsFindIndexAux (fun tid => tid == k) ((List.range n).reverse) i
      = some (n - 1 - k + i) := by
  induction n generalizing i with
  | zero => exact absurd hk (Nat.not_lt_zero k)
  | succ m ih =>
    rw [reverse_range_succ]
    simp only [jsFindIndexAux]
    by_cases hmk : m = k
    · subst hmk
      rw [if_pos (by simp)]
      congr 1
      omega
    · rw [if_neg (by simp [hmk])]
      have hk' : k < m := by omega
      rw [ih i.succ hk']
      congr 1
      omega

/-- Position of id `k` in the newest-first history of `n` consecutively
numbered tasks: `n - 1 - k`. -/
theorem jsFindIndex_reverse_range {k n : Nat} (hk : k < n) :
    jsFindIndex (fun tid => tid == k) ((List.range n).reverse) = some (n - 1 - k) := by
  have h := jsFindIndexAux_reverse_range n 0 hk
  simpa [jsFindIndex] using h

/-- The id found at position `h` of the newest-first history of `n`
consecutively numbered tasks: `n - 1 - h`. -/
theorem jsAt_reverse_range {h n : Nat} (hh : h < n) :
    jsAt ((List.range n).reverse) h = some (n - 1 - h) := by
  induction n generalizing h with
  | zero => exact absurd hh (Nat.not_lt_zero h)
  | succ m ih =>
    rw [reverse_range_succ]
    cases h with
    | zero =>
      simp only [jsAt]
      congr 1
    | succ h' =>
      have hh' : h' < m := by omega
      simp only [jsAt]
      rw [ih hh']
      congr 1
      omega

theorem updateTask_eq_of_fix {q : List QTask} {tid : Nat} {f : QTask → QTask}
    (h : ∀ t ∈ q, t.id = tid → f t = t) : updateTask q tid f = q := by
  induction q with
  | nil => rfl
  | cons t ts ih =>
    show (if (t.id == tid) = true then f t else t) :: updateTask ts tid f = t :: ts
    rw [ih (fun x hx hxid => h x (List.mem_cons_of_mem t hx) hxid)]
    by_cases hb : (t.id == tid) = true
    · rw [if_pos hb, h t (List.mem_cons_self t ts) (by simpa using hb)]
    · rw [if_neg hb]

theorem mem_updateTask {q : List QTask} {tid : Nat} {f : QTask → QTask} {t' : QTask}
    (h : t' ∈ updateTask q tid f) : t' ∈ q ∨ ∃ t, t ∈ q ∧ t' = f t := by
  rcases List.mem_map.mp h with ⟨t, ht, heq⟩
  by_cases hb : (t.id == tid) = true
  · rw [if_pos hb] at heq
    exact Or.inr ⟨t, ht, heq.symm⟩
  · rw [if_neg hb] at heq
    exact Or.inl (heq ▸ ht)

theorem updateTask_map_id {q : List QTask} {tid : Nat} {f : QTask → QTask}
    (hf : ∀ t, (f t).id = t.id) :
    (updateTask q tid f).map QTask.id = q.map QTask.id := by
  induction q with
  | nil => rfl
  | cons t ts ih =>
    show ((if (t.id == tid) = true then f t else t) :: updateTask ts tid f).map QTask.id
      = t.id :: ts.map QTask.id
    rw [List.map_cons, ih]
    by_cases hb : (t.id == tid) = true
    · rw [if_pos hb, hf t]
    · rw [if_neg hb]

theorem mem_setTask {q : List QTask} {cid : Nat} {c1 t' : QTask}
    (h : t' ∈ setTask q cid c1) : t' = c1 ∨ (t' ∈ q ∧ t'.id ≠ cid) := by
  rcases List.mem_map.mp h with ⟨t, ht, heq⟩
  by_cases hb : (t.id == cid) = true
  · rw [if_pos hb] at heq
    exact Or.inl heq.symm
  · rw [if_neg hb] at heq
    refine Or.inr ⟨heq ▸ ht, ?_⟩
    rw [← heq]
    simpa using hb

theorem setTask_map_id {q : List QTask} {cid : Nat} {c1 : QTask} (h : c1.id = cid) :
    (setTask q cid c1).map QTask.id = q.map QTask.id := by
  induction q with
  | nil => rfl
  | cons t ts ih =>
    show ((if (t.id == cid) = true then c1 else t) :: setTask ts cid c1).map QTask.id
      = t.id :: ts.map QTask.id
    rw [List.map_cons, ih]
    by_cases hb : (t.id == cid) = true
    · rw [if_pos hb]
      have hc : c1.id = t.id := by
        rw [h]
        exact (eq_of_beq hb).symm
      rw [hc]
    · rw [if_neg hb]

theorem staleWrite_some {history : List Nat} {hIdx : Option Nat} {tid : Nat}
    (h : historyTarget history hIdx = some tid) (q : List QTask) (f : QTask → QTask) :
    staleWrite q history hIdx f = updateTask q tid f := by
  simp only [staleWrite, h]

theorem mem_staleWrite {q : List QTask} {history : List Nat} {hIdx : Option Nat}
    {f : QTask → QTask} {t' : QTask} (h : t' ∈ staleWrite q history hIdx f) :
    t' ∈ q ∨ ∃ t, t ∈ q ∧ t' = f t := by
  cases hht : historyTarget history hIdx with
  | none =>
    simp only [staleWrite, hht] at h
    exact Or.inl h
  | some tid =>
    simp only [staleWrite, hht] at h
    exact mem_updateTask h

theorem staleWrite_map_id {q : List QTask} {history : List Nat} {hIdx : Option Nat}
    {f : QTask → QTask} (hf : ∀ t, (f t).id = t.id) :
    (staleWrite q history hIdx f).map QTask.id = q.map QTask.id := by
  cases hht : historyTarget history hIdx with
  | none => simp only [staleWrite, hht]
  | some tid =>
    simp only [staleWrite, hht]
    exact updateTask_map_id hf

theorem lastCtx_append (es es' : List QEvent) :
    lastCtx (es ++ es')
      = es'.foldl (fun acc e => match e with | QEvent.ctxUpdated _ m => m | _ => acc)
          (lastCtx es) := by
  rw [lastCtx, List.foldl_append]
  rfl

theorem lastCtx_enqueued (es : List QEvent) (i : Nat) :
    lastCtx (es ++ [QEvent.enqueued i]) = lastCtx es := by
  rw [lastCtx_append]
  rfl

theorem lastCtx_started (es : List QEvent) (i : Nat) (ctx : ExtractionResult) :
    lastCtx (es ++ [QEvent.started i ctx]) = lastCtx es := by
  rw [lastCtx_append]
  rfl

theorem lastCtx_completed_notified (es : List QEvent) (i : Nat) :
    lastCtx (es ++ [QEvent.completedEv i, QEvent.notified i]) = lastCtx es := by
  rw [lastCtx_append]
  rfl

theorem lastCtx_ctxUpdated (es : List QEvent) (i : Nat) (m : ExtractionResult) :
    lastCtx (es ++ [QEvent.ctxUpdated i m]) = m := by
  rw [lastCtx_append]
  rfl

theorem lastCtx_failed (es : List QEvent) (i : Nat) (msg : String) :
    lastCtx (es ++ [QEvent.failedEv i msg]) = lastCtx es := by
  rw [lastCtx_append]
  rfl

theorem startedCtxP_append {es : List QEvent} {e : QEvent} (H : startedCtxP es)
    (He : ∀ i ctx, e = QEvent.started i ctx → ctx = lastCtx es) :
    startedCtxP (es ++ [e]) := by
  intro pre i ctx suf h
  rcases append_singleton_decomp h with ⟨suf', hes, _⟩ | ⟨hpre, hx, _⟩
  · exact H pre i ctx suf' hes
  · subst hpre
    exact He i ctx hx.symm

theorem notifBeforeCtxP_append {es : List QEvent} {e : QEvent} (H : notifBeforeCtxP es)
    (He : ∀ i m, e = QEvent.ctxUpdated i m → QEvent.notified i ∈ es) :
    notifBeforeCtxP (es ++ [e]) := by
  intro pre i m suf h
  rcases append_singleton_decomp h with ⟨suf', hes, _⟩ | ⟨hpre, hx, _⟩
  · exact H pre i m suf' hes
  · subst hpre
    exact He i m hx.symm

theorem startedIds_append (es es' : List QEvent) :
    startedIds (es ++ es') = startedIds es ++ startedIds es' := by
  rw [startedIds, List.filterMap_append]
  rfl

theorem queue_ids_nodup {s : QState} (hids : s.queue.map QTask.id = List.range s.queue.length) :
    (s.queue.map QTask.id).Nodup := by
  rw [hids]
  exact List.nodup_range _

theorem find?_id_split {q done : List QTask} {c : QTask} {pend : List QTask}
    (hsplit : q = done ++ c :: pend) (hnd : (q.map QTask.id).Nodup) :
    q.find? (fun t => t.id == c.id) = some c := by
  subst hsplit
  obtain ⟨h₁, _⟩ := nodup_decomp_mid QTask.id hnd
  exact find?_first pend (fun x hx => by simpa using h₁ x hx) (by simp)

theorem startFirstPending_inv {s : QState} (h : QMidInv s) : QInv (startFirstPending s) := by
  obtain ⟨⟨hproc, hcur, hnp⟩, core⟩ := h
  cases hmark : markProcessing s.queue with
  | none =>
    have hq : startFirstPending s = s := by
      rw [startFirstPending, if_neg (by simp [hproc]), hmark]
    rw [hq]
    refine ⟨Or.inr ⟨hproc, ?_, hcur⟩, core⟩
    intro t ht
    exact not_pending_processing_terminal (markProcessing_none_all hmark t ht) (hnp t ht)
  | some pq =>
    obtain ⟨c, q'⟩ := pq
    obtain ⟨A, p, B, hsplit, hA, hp, hceq, hq'eq⟩ := markProcessing_some_eq hmark
    subst hceq
    have hpmem : p ∈ s.queue := by
      rw [hsplit]
      exact List.mem_append_right _ (List.mem_cons_self _ _)
    have hplt : p.id < s.queue.length := by
      have h1 : p.id ∈ s.queue.map QTask.id := List.mem_map_of_mem QTask.id hpmem
      rw [core.ids] at h1
      exact List.mem_range.mp h1
    have hfidx : jsFindIndex
        (fun tid => tid == ({ p with status := TStatus.processing } : QTask).id)
        s.taskHistory = some (s.queue.length - 1 - p.id) := by
      rw [core.histEq]
      exact jsFindIndex_reverse_range hplt
    have htgt : historyTarget s.taskHistory
        (jsFindIndex (fun tid => tid == ({ p with status := TStatus.processing } : QTask).id)
          s.taskHistory) = some p.id := by
      rw [hfidx]
      show jsAt s.taskHistory (s.queue.length - 1 - p.id) = some p.id
      rw [core.histEq,
        jsAt_reverse_range (show s.queue.length - 1 - p.id < s.queue.length by omega)]
      congr 1
      omega
    have hq'map : q'.map QTask.id = s.queue.map QTask.id := by
      rw [hq'eq, hsplit]
      simp
    have hq'len : q'.length = s.queue.length := by
      rw [hq'eq, hsplit]
      simp
    have hnd' : (q'.map QTask.id).Nodup := by
      rw [hq'map]
      exact queue_ids_nodup core.ids
    have hp'mem : ({ p with status := TStatus.processing } : QTask) ∈ q' := by
      rw [hq'eq]
      exact List.mem_append_right _ (List.mem_cons_self _ _)
    have hwrite : updateTask q' p.id (fun t => { t with status := TStatus.processing }) = q' := by
      refine updateTask_eq_of_fix ?_
      intro t ht htid
      have hteq : t = { p with status := TStatus.processing } :=
        eq_of_mem_nodup_key QTask.id hnd' ht hp'mem htid
      rw [hteq]
    have hq0 : startFirstPending s = { s with
        queue := staleWrite q' s.taskHistory
            (jsFindIndex
              (fun tid => tid == ({ p with status := TStatus.processing } : QTask).id)
              s.taskHistory)
            (fun t => { t with status := TStatus.processing })
        isProcessing := true
        currentTask := some ({ p with status := TStatus.processing } : QTask).id
        savedHistoryIndex := jsFindIndex
            (fun tid => tid == ({ p with status := TStatus.processing } : QTask).id)
            s.taskHistory
        events := s.events ++
          [QEvent.started ({ p with status := TStatus.processing } : QTask).id
            s.previousResults] } := by
      rw [startFirstPending, if_neg (by simp [hproc]), hmark]
    rw [hq0, staleWrite_some htgt, hwrite]
    refine ⟨Or.inl ⟨rfl, A, { p with status := TStatus.processing }, B,
      hq'eq, ?_, rfl, ?_, rfl⟩, ?_⟩
    · intro t ht
      refine not_pending_processing_terminal (hA t ht) (hnp t ?_)
      rw [hsplit]
      exact List.mem_append_left _ ht
    · intro t ht
      refine hnp t ?_
      rw [hsplit]
      exact List.mem_append_right _ (List.mem_cons_of_mem _ ht)
    constructor
    case ids =>
      show q'.map QTask.id = List.range q'.length
      rw [hq'map, hq'len]
      exact core.ids
    case histEq =>
      show s.taskHistory = (List.range q'.length).reverse
      rw [hq'len]
      exact core.histEq
    case prevEq =>
      show s.previousResults = lastCtx (s.events ++ [QEvent.started _ s.previousResults])
      rw [lastCtx_started]
      exact core.prevEq
    case startedCtx =>
      exact startedCtxP_append core.startedCtx
        (fun i ctx heq => by cases heq; exact core.prevEq)
    case notifCtx =>
      exact notifBeforeCtxP_append core.notifCtx (fun i m heq => by cases heq)

theorem enqueue_core {s : QState} (core : CoreInv s) (ts : Nat) (o : Outcome) :
    CoreInv { s with
      queue := s.queue ++ [{ id := s.queue.length, timestamp := ts, status := TStatus.pending,
                             result := none, error := none, outcome := o }]
      taskHistory := s.queue.length :: s.taskHistory
      events := s.events ++ [QEvent.enqueued s.queue.length] } := by
  constructor
  case ids =>
    show (s.queue ++ [_]).map QTask.id = List.range (s.queue ++ [_]).length
    rw [List.map_append, core.ids]
    simp [List.range_succ]
  case histEq =>
    show s.queue.length :: s.taskHistory = (List.range (s.queue ++ [_]).length).reverse
    rw [List.length_append, List.length_singleton, reverse_range_succ, core.histEq]
  case prevEq =>
    show s.previousResults = lastCtx (s.events ++ [QEvent.enqueued s.queue.length])
    rw [lastCtx_enqueued]
    exact core.prevEq
  case startedCtx =>
    exact startedCtxP_append core.startedCtx (fun i ctx heq => by cases heq)
  case notifCtx =>
    exact notifBeforeCtxP_append core.notifCtx (fun i m heq => by cases heq)

theorem addTask_inv {s : QState} (h : QInv s) (ts : Nat) (o : Outcome) :
    QInv (addTask s ts o) := by
  obtain ⟨hshape, core⟩ := h
  have core1 := enqueue_core core ts o
  show QInv (startFirstPending { s with
    queue := s.queue ++ [{ id := s.queue.length, timestamp := ts, status := TStatus.pending,
                           result := none, error := none, outcome := o }]
    taskHistory := s.queue.length :: s.taskHistory
    events := s.events ++ [QEvent.enqueued s.queue.length] })
  rcases hshape with ⟨hproc, done, c, rest, hsplit, hdone, hc, hrest, hcur⟩ |
    ⟨hproc, hterm, hcur⟩
  · rw [startFirstPending, if_pos (by simpa using hproc)]
    refine ⟨Or.inl ⟨by simpa using hproc, done, c,
      rest ++ [{ id := s.queue.length, timestamp := ts, status := TStatus.pending,
                 result := none, error := none, outcome := o }], ?_, hdone, hc, ?_,
      by simpa using hcur⟩, core1⟩
    · show s.queue ++ [_] = done ++ c :: (rest ++ [_])
      rw [hsplit]
      simp
    · intro t ht
      rcases List.mem_append.mp ht with ht | ht
      · exact hrest t ht
      · rcases List.mem_singleton.mp ht with rfl
        exact fun hcon => by cases hcon
  · refine startFirstPending_inv ⟨⟨by simpa using hproc, by simpa using hcur, ?_⟩, core1⟩
    intro t ht
    rcases List.mem_append.mp ht with ht | ht
    · exact terminal_ne_processing (hterm t ht)
    · rcases List.mem_singleton.mp ht with rfl
      exact fun hcon => by cases hcon

theorem append_pair {α : Type} (l : List α) (a b : α) : l ++ [a, b] = (l ++ [a]) ++ [b] := by
  simp

theorem afterFinally_inv {s : QState}
    (hqueue : ∀ t ∈ s.queue, t.status ≠ TStatus.processing)
    (core : CoreInv s) : QInv (afterFinally s) :=
  startFirstPending_inv ⟨⟨rfl, rfl, hqueue⟩,
    ⟨core.ids, core.histEq, core.prevEq, core.startedCtx, core.notifCtx⟩⟩

theorem finishTask_eq_success_some {s : QState} {c : QTask} {r : ExtractionResult}
    (hcur : s.currentTask = some c.id)
    (hfind : s.queue.find? (fun t => t.id == c.id) = some c)
    (hout : c.outcome = Outcome.success (some r)) :
    finishTask s = afterFinally { s with
      queue := staleWrite
          (setTask s.queue c.id { c with status := TStatus.completed, result := some r })
          s.taskHistory s.savedHistoryIndex
          (fun t => { t with status := TStatus.completed
                             result := if (some r : Option ExtractionResult).isSome
                               then some r else t.result })
      previousResults := mergeResults s.previousResults r
      events := (s.events ++ [QEvent.completedEv c.id, QEvent.notified c.id])
        ++ [QEvent.ctxUpdated c.id (mergeResults s.previousResults r)] } := by
  simp only [finishTask, hcur, hfind, hout]

theorem finishTask_eq_success_none {s : QState} {c : QTask}
    (hcur : s.currentTask = some c.id)
    (hfind : s.queue.find? (fun t => t.id == c.id) = some c)
    (hout : c.outcome = Outcome.success none) :
    finishTask s = afterFinally { s with
      queue := staleWrite
          (setTask s.queue c.id { c with status := TStatus.completed, result := none })
          s.taskHistory s.savedHistoryIndex
          (fun t => { t with status := TStatus.completed
                             result := if (none : Option ExtractionResult).isSome
                               then none else t.result })
      events := s.events ++ [QEvent.completedEv c.id, QEvent.notified c.id] } := by
  simp only [finishTask, hcur, hfind, hout]

theorem finishTask_eq_failure {s : QState} {c : QTask} {msg : String}
    (hcur : s.currentTask = some c.id)
    (hfind : s.queue.find? (fun t => t.id == c.id) = some c)
    (hout : c.outcome = Outcome.failure msg) :
    finishTask s = afterFinally { s with
      queue := staleWrite
          (setTask s.queue c.id { c with status := TStatus.failed, error := some msg })
          s.taskHistory s.savedHistoryIndex
          (fun t => { t with status := TStatus.failed, error := some msg })
      events := s.events ++ [QEvent.failedEv c.id msg] } := by
  simp only [finishTask, hcur, hfind, hout]

/-- Transport of the trace/id invariants across a step that replaces the
queue by an id-preserving rewrite and appends events. -/
theorem core_requeue {s : QState} (core : CoreInv s) {q2 : List QTask}
    {pr2 : ExtractionResult} {es2 : List QEvent}
    (hq : q2.map QTask.id = s.queue.map QTask.id)
    (hpr : pr2 = lastCtx es2)
    (hst : startedCtxP es2) (hnt : notifBeforeCtxP es2) :
    CoreInv { s with queue := q2, previousResults := pr2, events := es2 } := by
  have hl : q2.length = s.queue.length := by
    have h1 := congrArg List.length hq
    simpa using h1
  constructor
  case ids =>
    show q2.map QTask.id = List.range q2.length
    rw [hq, hl]
    exact core.ids
  case histEq =>
    show s.taskHistory = (List.range q2.length).reverse
    rw [hl]
    exact core.histEq
  case prevEq => exact hpr
  case startedCtx => exact hst
  case notifCtx => exact hnt

theorem finishTask_inv {s : QState} (h : QInv s) (hproc : s.isProcessing = true) :
    QInv (finishTask s) := by
  obtain ⟨hshape, core⟩ := h
  rcases hshape with ⟨_, done, c, rest, hsplit, hdone, hc, hrest, hcur⟩ | ⟨hproc', _, _⟩
  case intro.inr.intro.intro => rw [hproc] at hproc'; cases hproc'
  have hnd : (s.queue.map QTask.id).Nodup := queue_ids_nodup core.ids
  have hfind : s.queue.find? (fun t => t.id == c.id) = some c := find?_id_split hsplit hnd
  have hmid : ∀ (c1 : QTask) (f : QTask → QTask),
      c1.status ≠ TStatus.processing → (∀ t, (f t).status ≠ TStatus.processing) →
      ∀ t' ∈ staleWrite (setTask s.queue c.id c1) s.taskHistory s.savedHistoryIndex f,
        t'.status ≠ TStatus.processing := by
    intro c1 f hc1 hf t' ht'
    rcases mem_staleWrite ht' with ht1 | ⟨t0, ht0, rfl⟩
    · rcases mem_setTask ht1 with rfl | ⟨ht2, hne⟩
      · exact hc1
      · rw [hsplit] at ht2
        rcases List.mem_append.mp ht2 with htd | htc
        · exact terminal_ne_processing (hdone t' htd)
        · rcases List.mem_cons.mp htc with rfl | htr
          · exact absurd rfl hne
          · exact hrest t' htr
    · exact hf t0
  have hids : ∀ (c1 : QTask) (f : QTask → QTask), c1.id = c.id → (∀ t, (f t).id = t.id) →
      (staleWrite (setTask s.queue c.id c1) s.taskHistory s.savedHistoryIndex f).map QTask.id
        = s.queue.map QTask.id := by
    intro c1 f hc1 hf
    rw [staleWrite_map_id hf, setTask_map_id hc1]
  cases hout : c.outcome with
  | success res =>
    cases res with
    | some r =>
      rw [finishTask_eq_success_some hcur hfind hout]
      apply afterFinally_inv
      · exact hmid _ _ (fun hcon => by cases hcon) (fun t hcon => by cases hcon)
      · refine core_requeue core (hids _ _ rfl (fun t => rfl)) ?_ ?_ ?_
        · exact (lastCtx_ctxUpdated _ c.id _).symm
        · rw [append_pair]
          exact startedCtxP_append (startedCtxP_append
            (startedCtxP_append core.startedCtx (fun i ctx heq => by cases heq))
            (fun i ctx heq => by cases heq)) (fun i ctx heq => by cases heq)
        · rw [append_pair]
          refine notifBeforeCtxP_append (notifBeforeCtxP_append
            (notifBeforeCtxP_append core.notifCtx (fun i m heq => by cases heq))
            (fun i m heq => by cases heq)) ?_
          intro i m heq
          cases heq
          simp
    | none =>
      rw [finishTask_eq_success_none hcur hfind hout]
      apply afterFinally_inv
      · exact hmid _ _ (fun hcon => by cases hcon) (fun t hcon => by cases hcon)
      · refine core_requeue core (hids _ _ rfl (fun t => rfl)) ?_ ?_ ?_
        · rw [lastCtx_completed_notified]
          exact core.prevEq
        · rw [append_pair]
          exact startedCtxP_append
            (startedCtxP_append core.startedCtx (fun i ctx heq => by cases heq))
            (fun i ctx heq => by cases heq)
        · rw [append_pair]
          exact notifBeforeCtxP_append
            (notifBeforeCtxP_append core.notifCtx (fun i m heq => by cases heq))
            (fun i m heq => by cases heq)
  | failure msg =>
    rw [finishTask_eq_failure hcur hfind hout]
    apply afterFinally_inv
    · exact hmid _ _ (fun hcon => by cases hcon) (fun t hcon => by cases hcon)
    · refine core_requeue core (hids _ _ rfl (fun t => rfl)) ?_ ?_ ?_
      · rw [lastCtx_failed]
        exact core.prevEq
      · exact startedCtxP_append core.startedCtx (fun i ctx heq => by cases heq)
      · exact notifBeforeCtxP_append core.notifCtx (fun i m heq => by cases heq)

theorem reachable_inv {s : QState} (h : Reachable s) : QInv s := by
  induction h with
  | init =>
    constructor
    · right
      refine ⟨rfl, ?_, rfl⟩
      intro t ht
      simp [initState] at ht
    · refine ⟨rfl, rfl, rfl, ?_, ?_⟩
      · intro pre i ctx suf hdecomp
        exact absurd hdecomp (by simp [initState])
      · intro pre i m suf hdecomp
        exact absurd hdecomp (by simp [initState])
  | step hr hstep ih =>
    cases hstep with
    | add ts o => exact addTask_inv ih ts o
    | finish hp => exact finishTask_inv ih hp

theorem lastCtx_no_update {mid : List QEvent} {m : ExtractionResult} :
    (∀ e ∈ mid, ∀ k m2, e ≠ QEvent.ctxUpdated k m2) →
    mid.foldl (fun acc e => match e with | QEvent.ctxUpdated _ m2 => m2 | _ => acc) m = m := by
  induction mid with
  | nil => intro _; rfl
  | cons e mid ih =>
    intro hmid
    rw [List.foldl_cons]
    cases e
    case ctxUpdated k m2 => exact absurd rfl (hmid _ (List.mem_cons_self _ _) k m2)
    all_goals exact ih (fun e2 he2 k2 m2 => hmid e2 (List.mem_cons_of_mem _ he2) k2 m2)

/-! ## Claim C5 -/

/-- C5: in every reachable state at most one task holds status `processing`;
an `addTask` call made while a task is in flight only appends a pending task
and neither changes the current task nor starts another task. -/
theorem C5_single_flight (s : QState) (h : Reachable s) :
    (s.queue.filter (fun t => t.status == TStatus.processing)).length ≤ 1 ∧
    (s.isProcessing = true → ∀ ts o,
      (addTask s ts o).queue = s.queue ++
        [{ id := s.queue.length, timestamp := ts, status := TStatus.pending,
           result := none, error := none, outcome := o }] ∧
      (addTask s ts o).currentTask = s.currentTask ∧
      startedIds (addTask s ts o).events = startedIds s.events) := by
  obtain ⟨hshape, _⟩ := reachable_inv h
  constructor
  · rcases hshape with ⟨_, done, c, rest, hsplit, hdone, hc, hrest, _⟩ | ⟨_, hterm, _⟩
    · have h1 : done.filter (fun t => t.status == TStatus.processing) = [] :=
        List.filter_eq_nil.mpr
          (fun t ht => by simp [terminal_ne_processing (hdone t ht)])
      have h2 : rest.filter (fun t => t.status == TStatus.processing) = [] :=
        List.filter_eq_nil.mpr (fun t ht => by simpa using hrest t ht)
      rw [hsplit, List.filter_append, List.filter_cons, h1, h2]
      simp [hc]
    · have h1 : s.queue.filter (fun t => t.status == TStatus.processing) = [] :=
        List.filter_eq_nil.mpr
          (fun t ht => by simp [terminal_ne_processing (hterm t ht)])
      rw [h1]
      simp
  · intro hip ts o
    have hadd : addTask s ts o = { s with
        queue := s.queue ++ [{ id := s.queue.length, timestamp := ts, status := TStatus.pending,
                               result := none, error := none, outcome := o }]
        taskHistory := s.queue.length :: s.taskHistory
        events := s.events ++ [QEvent.enqueued s.queue.length] } := by
      show startFirstPending _ = _
      rw [startFirstPending, if_pos (by simpa using hip)]
    rw [hadd]
    refine ⟨rfl, rfl, ?_⟩
    show startedIds (s.events ++ [QEvent.enqueued s.queue.length]) = startedIds s.events
    have h0 : startedIds [QEvent.enqueued s.queue.length] = [] := rfl
    rw [startedIds_append, h0, List.append_nil]

/-- C5 witness: with one task in flight and one pending, at most one task is
processing, and an `addTask` call while processing only enqueues. -/
theorem C5_single_flight_witness :
    (qS2.queue.filter (fun t => t.status == TStatus.processing)).length ≤ 1 ∧
    (addTask qS2 5 oSkip).currentTask = qS2.currentTask ∧
    startedIds (addTask qS2 5 oSkip).events = startedIds qS2.events := by
  have h := C5_single_flight qS2
    (Reachable.step (Reachable.step Reachable.init (QStep.add initState 0 oSkip))
      (QStep.add (addTask initState 0 oSkip) 1 oSkip))
  exact ⟨h.1, (h.2 (by decide) 5 oSkip).2.1, (h.2 (by decide) 5 oSkip).2.2⟩

/-! ## Claim C6 -/

/-- C6 (code bug): enqueue T1 (id 0); while its handler is awaiting, enqueue
T2 (id 1) and T3 (id 2); T1's and then T2's handlers resolve successfully.
The `historyIndex` captured before T1's await (line 94) now points at T3 —
`taskHistory` and `queue` hold the same objects and two `unshift` calls
happened in between — so T1's resumption (lines 109-114) marks T3
`completed` and copies T1's result into it.  T3 is never started, never
notified, never finished, and after T2 resolves the loop finds nothing
pending and halts: the completion order is not T1, T2, T3 and the task
enqueued last never runs at all, contradicting the claimed FIFO guarantee. -/
theorem C6_fifo_code_bug :
    qStale3.queue.map QTask.status
      = [TStatus.completed, TStatus.completed, TStatus.completed] ∧
    startedIds qStale3.events = [0, 1] ∧
    finishedIds qStale3.events = [0, 1] ∧
    QEvent.notified 2 ∉ qStale3.events ∧
    qStale3.queue.find? (fun t => t.id == 2)
      = some { id := 2, timestamp := 2, status := TStatus.completed,
               result := some ctxA, error := none, outcome := oA } ∧
    qStale3.isProcessing = false := by
  decide

/-! ## Claim C7 -/

/-- C7: in every reachable state, every `started` event records exactly the
cumulative context left by the last preceding merge (so a task started right
after task N merged reads task N's merged result), and every `ctxUpdated`
event is preceded by the `notified` event of the same task (the completion
notification fires before the cumulative context is updated). -/
theorem C7_context_propagation (s : QState) (h : Reachable s) :
    (∀ pre i ctx suf, s.events = pre ++ QEvent.started i ctx :: suf → ctx = lastCtx pre) ∧
    (∀ pre i m suf, s.events = pre ++ QEvent.ctxUpdated i m :: suf →
        QEvent.notified i ∈ pre) ∧
    (∀ pre i m mid j ctx suf,
        s.events = pre ++ QEvent.ctxUpdated i m :: (mid ++ QEvent.started j ctx :: suf) →
        (∀ e ∈ mid, ∀ k m2, e ≠ QEvent.ctxUpdated k m2) → ctx = m) := by
  obtain ⟨_, core⟩ := reachable_inv h
  refine ⟨core.startedCtx, core.notifCtx, ?_⟩
  intro pre i m mid j ctx suf hdecomp hmid
  have h1 : s.events = (pre ++ QEvent.ctxUpdated i m :: mid) ++ QEvent.started j ctx :: suf := by
    rw [hdecomp]
    simp
  have h2 := core.startedCtx _ j ctx suf h1
  rw [h2, show pre ++ QEvent.ctxUpdated i m :: mid
      = (pre ++ [QEvent.ctxUpdated i m]) ++ mid by simp,
    lastCtx_append, lastCtx_ctxUpdated]
  exact lastCtx_no_update hmid

/-- C7 witness: in the two-task scenario the second task's `started` event
records exactly the context merged from the first task's result. -/
theorem C7_context_propagation_witness :
    qC7.events = qC7pre ++ QEvent.started 1 (mergeResults emptyResult ctxA) :: qC7suf ∧
    mergeResults emptyResult ctxA = lastCtx qC7pre := by
  refine ⟨by decide, ?_⟩
  exact (C7_context_propagation qC7
    (Reachable.step (Reachable.step (Reachable.step
      (Reachable.step Reachable.init (QStep.add initState 0 oA))
      (QStep.finish (addTask initState 0 oA) (by decide)))
      (QStep.add (finishTask (addTask initState 0 oA)) 1 oA))
      (QStep.finish (addTask (finishTask (addTask initState 0 oA)) 1 oA) (by decide)))).1
    qC7pre 1 (mergeResults emptyResult ctxA) qC7suf (by decide)

/-! ## Claim C8 -/

/-- C8 (code bug): enqueue T1 (id 0) whose handler throws "boom"; while it is
awaiting, enqueue T2 (id 1); T1 rejects.  Before the resumption T2 is
pending (first conjunct).  The catch block marks T1 failed — but the stale
`historyIndex` write (lines 130-133) also marks T2, the object
`taskHistory[0]` now denotes, `failed` with T1's message.  The `finally`
block then finds no pending task and the loop halts: T2 is never started
and never processed, the service ends idle, and two tasks carry `failed`
although only one handler threw — contradicting the claimed isolation
("only that task transitions to failed") and continuation ("the processing
loop continues with the next pending task").  Only the context-preservation
part of the claim survives: `previousResults` is still empty. -/
theorem C8_failure_code_bug :
    qFail.queue.map QTask.status = [TStatus.processing, TStatus.pending] ∧
    qStaleFail.queue.map QTask.status = [TStatus.failed, TStatus.failed] ∧
    qStaleFail.queue.find? (fun t => t.id == 1)
      = some { id := 1, timestamp := 1, status := TStatus.failed,
               result := none, error := some "boom", outcome := oSkip } ∧
    startedIds qStaleFail.events = [0] ∧
    qStaleFail.previousResults = emptyResult ∧
    qStaleFail.isProcessing = false := by
  decide
